import Mathlib

/-!
Verification of the least-cost transmission path core of reVX.

The engine itself (cost-layer combination, clip windowing, the grid
minimum-cost-path search, the task orchestrator and the reinforcement
planner) is modelled from the specification; path costs mix rational
multiples of 1 and of the square root of 2 (orthogonal and diagonal
steps), so costs are carried as pairs of rationals with an exact
decidable order.
-/

/-- A cost value `o + d * sqrt 2`: the first component collects
orthogonal-step contributions, the second diagonal-step contributions. -/
abbrev Q2 : Type := ℚ × ℚ

/-- Real value of a `Q2` cost. -/
noncomputable def q2val (x : Q2) : ℝ := (x.1 : ℝ) + (x.2 : ℝ) * Real.sqrt 2

/-- Decides `p ≤ q * sqrt 2` for rationals by sign analysis and squaring. -/
def rleSqrt2 (p q : ℚ) : Bool :=
  if 0 ≤ q then decide (p ≤ 0) || decide (p ^ 2 ≤ 2 * q ^ 2)
  else decide (p ≤ 0) && decide (2 * q ^ 2 ≤ p ^ 2)

/-- Decidable comparison of two `Q2` costs, agreeing with their real values. -/
def q2le (x y : Q2) : Bool := rleSqrt2 (x.1 - y.1) (y.2 - x.2)

lemma sqrt_two_sq : Real.sqrt 2 ^ 2 = 2 := Real.sq_sqrt (by norm_num)

lemma sqrt_two_pos : (0 : ℝ) < Real.sqrt 2 := Real.sqrt_pos.mpr (by norm_num)

lemma rleSqrt2_iff (p q : ℚ) :
    rleSqrt2 p q = true ↔ (p : ℝ) ≤ (q : ℝ) * Real.sqrt 2 := by
  have hs0 : (0 : ℝ) ≤ Real.sqrt 2 := Real.sqrt_nonneg 2
  have hs2 := sqrt_two_sq
  unfold rleSqrt2
  by_cases hq : 0 ≤ q
  · have hq' : (0 : ℝ) ≤ (q : ℝ) := by exact_mod_cast hq
    simp only [hq, if_true, Bool.or_eq_true, decide_eq_true_eq]
    constructor
    · rintro (h0 | hsq)
      · have h0' : (p : ℝ) ≤ 0 := by exact_mod_cast h0
        exact le_trans h0' (mul_nonneg hq' hs0)
      · have hsq' : (p : ℝ) ^ 2 ≤ 2 * (q : ℝ) ^ 2 := by exact_mod_cast hsq
        by_contra hlt
        push_neg at hlt
        have h1 : (0 : ℝ) ≤ (q : ℝ) * Real.sqrt 2 := mul_nonneg hq' hs0
        have h2 := mul_self_lt_mul_self h1 hlt
        nlinarith
    · intro h
      by_cases hp : p ≤ 0
      · exact Or.inl hp
      · right
        push_neg at hp
        have hp' : (0 : ℝ) < (p : ℝ) := by exact_mod_cast hp
        have h2 := mul_self_le_mul_self hp'.le h
        have : (p : ℝ) ^ 2 ≤ 2 * (q : ℝ) ^ 2 := by nlinarith
        exact_mod_cast this
  · push_neg at hq
    have hq' : (q : ℝ) < 0 := by exact_mod_cast hq
    have hqs : (q : ℝ) * Real.sqrt 2 < 0 := mul_neg_of_neg_of_pos hq' sqrt_two_pos
    simp only [if_neg (not_le.mpr hq), Bool.and_eq_true, decide_eq_true_eq]
    constructor
    · rintro ⟨hp0, hsq⟩
      have hp0' : (p : ℝ) ≤ 0 := by exact_mod_cast hp0
      have hsq' : 2 * (q : ℝ) ^ 2 ≤ (p : ℝ) ^ 2 := by exact_mod_cast hsq
      by_contra hlt
      push_neg at hlt
      have h1 : (0 : ℝ) ≤ -(p : ℝ) := by linarith
      have h2 : -(p : ℝ) < -((q : ℝ) * Real.sqrt 2) := by linarith
      have h3 := mul_self_lt_mul_self h1 h2
      nlinarith
    · intro h
      have hp0 : (p : ℝ) < 0 := lt_of_le_of_lt h hqs
      refine ⟨by exact_mod_cast hp0.le, ?_⟩
      have h1 : (0 : ℝ) ≤ -((q : ℝ) * Real.sqrt 2) := by linarith
      have h2 : -((q : ℝ) * Real.sqrt 2) ≤ -(p : ℝ) := by linarith
      have h3 := mul_self_le_mul_self h1 h2
      have : 2 * (q : ℝ) ^ 2 ≤ (p : ℝ) ^ 2 := by nlinarith
      exact_mod_cast this

lemma q2le_iff (x y : Q2) : q2le x y = true ↔ q2val x ≤ q2val y := by
  unfold q2le q2val
  rw [rleSqrt2_iff]
  push_cast
  constructor <;> intro h <;> nlinarith [Real.sqrt_nonneg 2]

lemma q2le_false (x y : Q2) (h : q2le x y = false) : q2val y ≤ q2val x := by
  by_contra hc
  push_neg at hc
  have := (q2le_iff x y).mpr hc.le
  rw [h] at this
  exact Bool.false_ne_true this

lemma q2val_add (x y : Q2) : q2val (x + y) = q2val x + q2val y := by
  unfold q2val
  rw [Prod.fst_add, Prod.snd_add]
  push_cast
  ring

lemma q2val_zero : q2val (0 : Q2) = 0 := by
  unfold q2val
  norm_num

lemma q2val_nonneg (x : Q2) (h1 : 0 ≤ x.1) (h2 : 0 ≤ x.2) : 0 ≤ q2val x := by
  unfold q2val
  have h1' : (0 : ℝ) ≤ (x.1 : ℝ) := by exact_mod_cast h1
  have h2' : (0 : ℝ) ≤ (x.2 : ℝ) := by exact_mod_cast h2
  have := mul_nonneg h2' (Real.sqrt_nonneg 2)
  linarith

/-- Grid cell addressed as (row, column). -/
abbrev Cell : Type := ℕ × ℕ

/-- Modelled from the spec: the CostSurface data model (spec section 3) is not
in the repository sources; a 2-D grid of per-cell traversal costs with a
physical cell size in meters, where a negative cost marks a barrier cell. -/
structure CostSurface where
  rows : ℕ
  cols : ℕ
  cost : ℕ → ℕ → ℚ
  cellSize : ℚ

/-- A cell inside the grid that is not a barrier (non-negative cost). -/
def validCell (S : CostSurface) (p : Cell) : Prop :=
  p.1 < S.rows ∧ p.2 < S.cols ∧ 0 ≤ S.cost p.1 p.2

instance (S : CostSurface) (p : Cell) : Decidable (validCell S p) :=
  inferInstanceAs (Decidable (p.1 < S.rows ∧ p.2 < S.cols ∧ 0 ≤ S.cost p.1 p.2))

/-- Modelled from the spec: the ClipWindow data model (spec section 3), an
axis-aligned inclusive rectangle of grid indices. -/
structure ClipWindow where
  rlo : ℕ
  rhi : ℕ
  clo : ℕ
  chi : ℕ

/-- Window membership of a cell. -/
def inWindow (W : ClipWindow) (p : Cell) : Prop :=
  W.rlo ≤ p.1 ∧ p.1 ≤ W.rhi ∧ W.clo ≤ p.2 ∧ p.2 ≤ W.chi

instance (W : ClipWindow) (p : Cell) : Decidable (inWindow W p) :=
  inferInstanceAs
    (Decidable (W.rlo ≤ p.1 ∧ p.1 ≤ W.rhi ∧ W.clo ≤ p.2 ∧ p.2 ≤ W.chi))

/-- Modelled from the spec: the ClipWindower (spec section 4.2) is not in
the repository sources: the smallest index rectangle containing both cells,
expanded by the buffer on every side and clamped to the surface extent. -/
def clip (S : CostSurface) (s t : Cell) (buffer : ℕ) : ClipWindow :=
  { rlo := min s.1 t.1 - buffer
    rhi := min (max s.1 t.1 + buffer) (S.rows - 1)
    clo := min s.2 t.2 - buffer
    chi := min (max s.2 t.2 + buffer) (S.cols - 1) }

/-- A cell usable by a search in window `W`: valid on the surface and inside
the window. -/
def okCell (S : CostSurface) (W : ClipWindow) (p : Cell) : Prop :=
  validCell S p ∧ inWindow W p

instance (S : CostSurface) (W : ClipWindow) (p : Cell) : Decidable (okCell S W p) :=
  inferInstanceAs (Decidable (validCell S p ∧ inWindow W p))

/-- 8-neighbor adjacency of two distinct grid cells. -/
def adjacent (a b : Cell) : Prop :=
  a ≠ b ∧ ((a.1 : ℤ) - b.1).natAbs ≤ 1 ∧ ((a.2 : ℤ) - b.2).natAbs ≤ 1

instance (a b : Cell) : Decidable (adjacent a b) :=
  inferInstanceAs
    (Decidable (a ≠ b ∧ ((a.1 : ℤ) - b.1).natAbs ≤ 1 ∧ ((a.2 : ℤ) - b.2).natAbs ≤ 1))

lemma adjacent_symm {a b : Cell} (h : adjacent a b) : adjacent b a := by
  obtain ⟨hne, h1, h2⟩ := h
  exact ⟨fun hc => hne hc.symm, by omega, by omega⟩

/-- Modelled from the spec: edge weight of the PathFinder graph (spec section
4.3): geometric distance between cell centers (1 orthogonal, sqrt 2 diagonal,
scaled by the physical cell size) times the average traversal cost of the two
endpoint cells, carried exactly as a `Q2` value. -/
def weight (S : CostSurface) (a b : Cell) : Q2 :=
  if a.1 = b.1 ∨ a.2 = b.2 then
    (S.cellSize * ((S.cost a.1 a.2 + S.cost b.1 b.2) / 2), 0)
  else
    (0, S.cellSize * ((S.cost a.1 a.2 + S.cost b.1 b.2) / 2))

/-- Geographic distance in meters between the centers of two adjacent cells
under the surface transform (axis-aligned, square cells). -/
def geoStep (S : CostSurface) (a b : Cell) : Q2 :=
  if a.1 = b.1 ∨ a.2 = b.2 then (S.cellSize, 0) else (0, S.cellSize)

/-- Accumulated graph cost of a walk: sum of edge weights along consecutive
cells. -/
def walkCost (S : CostSurface) : List Cell → Q2
  | [] => 0
  | [_] => 0
  | a :: b :: rest => weight S a b + walkCost S (b :: rest)

/-- Real-world length of a walk in meters: sum of geographic step distances
between consecutive cells, independent of the traversal costs. -/
def geoLen (S : CostSurface) : List Cell → Q2
  | [] => 0
  | [_] => 0
  | a :: b :: rest => geoStep S a b + geoLen S (b :: rest)

/-- A valid walk for the search: starts at `s`, ends at `t`, consecutive cells
8-adjacent, and every cell valid (non-barrier, inside the grid) and inside the
window. -/
def ValidWalk (S : CostSurface) (W : ClipWindow) (s t : Cell) (p : List Cell) : Prop :=
  p.head? = some s ∧ p.getLast? = some t ∧ p.Chain' adjacent ∧ ∀ c ∈ p, okCell S W c

/-- A valid path: a valid walk visiting no cell twice. -/
def ValidPath (S : CostSurface) (W : ClipWindow) (s t : Cell) (p : List Cell) : Prop :=
  ValidWalk S W s t p ∧ p.Nodup

lemma weight_nonneg (S : CostSurface) (a b : Cell) (hcs : 0 ≤ S.cellSize)
    (ha : 0 ≤ S.cost a.1 a.2) (hb : 0 ≤ S.cost b.1 b.2) :
    0 ≤ q2val (weight S a b) := by
  have havg : 0 ≤ S.cellSize * ((S.cost a.1 a.2 + S.cost b.1 b.2) / 2) := by
    apply mul_nonneg hcs
    linarith
  unfold weight
  by_cases h : a.1 = b.1 ∨ a.2 = b.2
  · rw [if_pos h]
    exact q2val_nonneg _ havg le_rfl
  · rw [if_neg h]
    exact q2val_nonneg _ le_rfl havg

lemma walkCost_nonneg (S : CostSurface) (W : ClipWindow) (p : List Cell)
    (hcs : 0 ≤ S.cellSize) (hok : ∀ c ∈ p, okCell S W c) :
    0 ≤ q2val (walkCost S p) := by
  induction p with
  | nil => simp [walkCost, q2val_zero]
  | cons a rest ih =>
    cases rest with
    | nil => simp [walkCost, q2val_zero]
    | cons b rest2 =>
      have ha := hok a (by simp)
      have hb := hok b (by simp)
      have hrest : ∀ c ∈ b :: rest2, okCell S W c := by
        intro c hc
        exact hok c (List.mem_cons_of_mem a hc)
      have h1 := weight_nonneg S a b hcs ha.1.2.2 hb.1.2.2
      have h2 := ih hrest
      rw [walkCost, q2val_add]
      linarith

lemma walkCost_append (S : CostSurface) (xs : List Cell) (a : Cell) (ys : List Cell) :
    walkCost S (xs ++ a :: ys) = walkCost S (xs ++ [a]) + walkCost S (a :: ys) := by
  induction xs with
  | nil =>
    simp [walkCost]
  | cons x xs ih =>
    cases xs with
    | nil =>
      cases ys with
      | nil => simp [walkCost]
      | cons y ys2 => simp [walkCost, add_assoc]
    | cons x2 xs2 =>
      show weight S x x2 + walkCost S ((x2 :: xs2) ++ a :: ys) =
        weight S x x2 + walkCost S ((x2 :: xs2) ++ [a]) + walkCost S (a :: ys)
      rw [ih, add_assoc]

lemma walkCost_snoc (S : CostSurface) (p : List Cell) (a b : Cell)
    (h : p.getLast? = some a) :
    walkCost S (p ++ [b]) = walkCost S p + weight S a b := by
  induction p with
  | nil => simp at h
  | cons x rest ih =>
    cases rest with
    | nil =>
      simp at h
      subst h
      simp [walkCost]
    | cons y rest2 =>
      have h2 : (y :: rest2).getLast? = some a := by
        rwa [List.getLast?_cons_cons] at h
      show weight S x y + walkCost S ((y :: rest2) ++ [b]) =
        weight S x y + walkCost S (y :: rest2) + weight S a b
      rw [ih h2, add_assoc]

lemma validWalk_singleton (S : CostSurface) (W : ClipWindow) (s : Cell)
    (h : okCell S W s) : ValidWalk S W s s [s] := by
  refine ⟨rfl, rfl, List.chain'_singleton s, ?_⟩
  intro c hc
  rw [List.mem_singleton] at hc
  rwa [hc]

lemma validWalk_snoc (S : CostSurface) (W : ClipWindow) (s a b : Cell)
    (p : List Cell) (hw : ValidWalk S W s a p) (hb : okCell S W b)
    (hab : adjacent a b) : ValidWalk S W s b (p ++ [b]) := by
  obtain ⟨hh, hl, hc, hm⟩ := hw
  have hpne : p ≠ [] := by
    intro hp
    rw [hp] at hh
    simp at hh
  refine ⟨?_, List.getLast?_concat p, ?_, ?_⟩
  · rw [List.head?_append, hh]
    rfl
  · rw [List.chain'_append]
    refine ⟨hc, List.chain'_singleton b, ?_⟩
    intro x hx y hy
    rw [hl] at hx
    simp at hx hy
    rw [← hx, ← hy]
    exact hab
  · intro c hc2
    rw [List.mem_append] at hc2
    rcases hc2 with h1 | h1
    · exact hm c h1
    · rw [List.mem_singleton] at h1
      rwa [h1]

lemma validWalk_unsnoc (S : CostSurface) (W : ClipWindow) (s b : Cell)
    (q : List Cell) (hq : q ≠ [])
    (hw : ValidWalk S W s b (q ++ [b])) :
    ∃ a, q.getLast? = some a ∧ ValidWalk S W s a q ∧ adjacent a b := by
  obtain ⟨hh, _, hc, hm⟩ := hw
  have hga : q.getLast? = some (q.getLast hq) := List.getLast?_eq_getLast q hq
  refine ⟨q.getLast hq, hga, ⟨?_, hga, ?_, ?_⟩, ?_⟩
  · rw [List.head?_append] at hh
    cases hq2 : q.head? with
    | none => exact absurd (List.head?_eq_none_iff.mp hq2) hq
    | some x =>
      rw [hq2] at hh
      simp at hh
      rw [hh]
  · exact (List.chain'_append.mp hc).1
  · intro c hc2
    exact hm c (List.mem_append_left _ hc2)
  · have hR := (List.chain'_append.mp hc).2.2
    apply hR
    · exact hga
    · rfl

/-- The eight neighbor offsets of the grid graph. -/
def nbrOffsets : List (ℤ × ℤ) :=
  [(-1, -1), (-1, 0), (-1, 1), (0, -1), (0, 1), (1, -1), (1, 0), (1, 1)]

/-- Shift a cell by an integer offset, if the result stays inside the first
quadrant. -/
def shiftCell (b : Cell) (o : ℤ × ℤ) : Option Cell :=
  if 0 ≤ (b.1 : ℤ) + o.1 ∧ 0 ≤ (b.2 : ℤ) + o.2 then
    some (((b.1 : ℤ) + o.1).toNat, ((b.2 : ℤ) + o.2).toNat)
  else none

/-- The list of grid cells 8-adjacent to `b`. -/
def nbrs (b : Cell) : List Cell := nbrOffsets.filterMap (shiftCell b)

lemma shiftCell_eq_some (b a : Cell) (o : ℤ × ℤ) :
    shiftCell b o = some a ↔
      ((a.1 : ℤ) = (b.1 : ℤ) + o.1 ∧ (a.2 : ℤ) = (b.2 : ℤ) + o.2) := by
  unfold shiftCell
  split_ifs with h
  · simp only [Option.some.injEq, Prod.ext_iff]
    omega
  · simp only [reduceCtorEq, false_iff]
    omega

lemma cell_ne_iff (a b : Cell) : a ≠ b ↔ ¬(a.1 = b.1 ∧ a.2 = b.2) := by
  rw [not_and_or]
  constructor
  · intro h
    by_contra hc
    push_neg at hc
    exact h (Prod.ext hc.1 hc.2)
  · intro h hc
    rw [hc] at h
    simp at h

lemma mem_nbrs_iff (a b : Cell) : a ∈ nbrs b ↔ adjacent a b := by
  unfold nbrs
  rw [List.mem_filterMap]
  unfold adjacent
  rw [cell_ne_iff]
  constructor
  · rintro ⟨o, ho, hs⟩
    rw [shiftCell_eq_some] at hs
    unfold nbrOffsets at ho
    simp only [List.mem_cons, List.not_mem_nil, or_false] at ho
    rcases ho with h | h | h | h | h | h | h | h <;> subst h <;>
      refine ⟨by omega, by omega, by omega⟩
  · rintro ⟨hne, h1, h2⟩
    refine ⟨((a.1 : ℤ) - b.1, (a.2 : ℤ) - b.2), ?_, ?_⟩
    · unfold nbrOffsets
      simp only [List.mem_cons, List.not_mem_nil, or_false, Prod.ext_iff]
      omega
    · rw [shiftCell_eq_some]
      omega

/-- All cells of the grid. -/
def gridCells (S : CostSurface) : List Cell :=
  (List.range S.rows) ×ˢ (List.range S.cols)

/-- The usable cells of a search window, in a fixed row-major order. -/
def wcells (S : CostSurface) (W : ClipWindow) : List Cell :=
  (gridCells S).filter (fun p => decide (okCell S W p))

lemma mem_wcells (S : CostSurface) (W : ClipWindow) (p : Cell) :
    p ∈ wcells S W ↔ okCell S W p := by
  unfold wcells gridCells
  rw [List.mem_filter]
  constructor
  · rintro ⟨_, h2⟩
    exact of_decide_eq_true h2
  · intro h
    refine ⟨?_, decide_eq_true h⟩
    rcases p with ⟨r, c⟩
    rw [List.mem_product]
    exact ⟨List.mem_range.mpr h.1.1, List.mem_range.mpr h.1.2.1⟩

lemma nodup_wcells (S : CostSurface) (W : ClipWindow) : (wcells S W).Nodup :=
  List.Nodup.filter _
    (List.Nodup.product (List.nodup_range _) (List.nodup_range _))

/-- A search entry: an accumulated cost together with the walk realizing it. -/
abbrev DEntry : Type := Q2 × List Cell

/-- Association list from cells to search entries. -/
abbrev DMap : Type := List (Cell × DEntry)

/-- Lookup in the search map. -/
def dlookup (d : DMap) (p : Cell) : Option DEntry :=
  match d with
  | [] => none
  | (q, e) :: rest => if p = q then some e else dlookup rest p

/-- Keep the better (lower-cost) of two entries; on a tie the incumbent is
kept, matching the accepted first-in order of the priority queue. -/
def pickBetter (acc : Option DEntry) (e : DEntry) : Option DEntry :=
  match acc with
  | none => some e
  | some e0 => some (if q2le e0.1 e.1 then e0 else e)

/-- Relaxation of one candidate in-neighbor `a` of the cell `b` being
relaxed. -/
def relaxFun (S : CostSurface) (d : DMap) (b : Cell) (acc : Option DEntry)
    (a : Cell) : Option DEntry :=
  match dlookup d a with
  | none => acc
  | some e => pickBetter acc (e.1 + weight S a b, e.2 ++ [b])

/-- One relaxation of cell `b`: the best among its current entry and every
in-neighbor entry extended along the connecting edge. -/
def relaxAt (S : CostSurface) (d : DMap) (b : Cell) : Option DEntry :=
  (nbrs b).foldl (relaxFun S d b) (dlookup d b)

lemma relaxFun_none (S : CostSurface) (d : DMap) (b : Cell)
    (acc : Option DEntry) (a : Cell) (h : dlookup d a = none) :
    relaxFun S d b acc a = acc := by
  unfold relaxFun
  rw [h]

lemma relaxFun_some (S : CostSurface) (d : DMap) (b : Cell)
    (acc : Option DEntry) (a : Cell) (e : DEntry) (h : dlookup d a = some e) :
    relaxFun S d b acc a = pickBetter acc (e.1 + weight S a b, e.2 ++ [b]) := by
  unfold relaxFun
  rw [h]

/-- One synchronous relaxation round over every usable window cell. -/
def relaxStep (S : CostSurface) (W : ClipWindow) (d : DMap) : DMap :=
  (wcells S W).filterMap (fun b => Option.map (fun e => (b, e)) (relaxAt S d b))

/-- Modelled from the spec: the PathFinder shortest-path search (spec section
4.3) is not in the repository sources; it is modelled as iterated relaxation
from the start cell, which after `k` rounds accounts for every walk of at most
`k` edges. -/
def searchFrom (S : CostSurface) (W : ClipWindow) (s : Cell) (k : ℕ) : DMap :=
  (relaxStep S W)^[k] [(s, ((0 : Q2), [s]))]

lemma dlookup_build (f : Cell → Option DEntry) (l : List Cell) (hl : l.Nodup)
    (b : Cell) :
    dlookup (l.filterMap (fun c => Option.map (fun e => (c, e)) (f c))) b =
      if b ∈ l then f b else none := by
  induction l with
  | nil => simp [dlookup]
  | cons c rest ih =>
    rw [List.nodup_cons] at hl
    rw [List.filterMap_cons]
    cases hfc : f c with
    | none =>
      rw [show Option.map (fun e => (c, e)) none = none from rfl, ih hl.2]
      by_cases hbc : b = c
      · subst hbc
        simp [hl.1, hfc]
      · simp [hbc]
    | some e =>
      rw [show Option.map (fun e => (c, e)) (some e) = some (c, e) from rfl]
      show dlookup ((c, e) :: _) b = _
      unfold dlookup
      by_cases hbc : b = c
      · subst hbc
        simp [hfc]
      · rw [if_neg hbc, ih hl.2]
        simp [hbc]

lemma dlookup_relaxStep (S : CostSurface) (W : ClipWindow) (d : DMap) (b : Cell) :
    dlookup (relaxStep S W d) b =
      if okCell S W b then relaxAt S d b else none := by
  unfold relaxStep
  rw [dlookup_build _ _ (nodup_wcells S W) b]
  by_cases h : okCell S W b
  · rw [if_pos ((mem_wcells S W b).mpr h), if_pos h]
  · rw [if_neg (fun hc => h ((mem_wcells S W b).mp hc)), if_neg h]

/-- Every entry of a sound search map records a genuine walk from the start
together with its exact accumulated cost. -/
def SoundMap (S : CostSurface) (W : ClipWindow) (s : Cell) (d : DMap) : Prop :=
  ∀ b e, dlookup d b = some e → ValidWalk S W s b e.2 ∧ walkCost S e.2 = e.1

lemma pickBetter_cases (acc : Option DEntry) (e r : DEntry)
    (h : pickBetter acc e = some r) : r = e ∨ acc = some r := by
  unfold pickBetter at h
  cases acc with
  | none =>
    left
    exact (Option.some.inj h).symm
  | some e0 =>
    have he := Option.some.inj h
    by_cases hle : q2le e0.1 e.1
    · right
      rw [if_pos hle] at he
      rw [he]
    · left
      rw [if_neg hle] at he
      rw [he]

lemma relaxAt_cases (S : CostSurface) (d : DMap) (b : Cell) (r : DEntry)
    (h : relaxAt S d b = some r) :
    dlookup d b = some r ∨
      ∃ a, adjacent a b ∧ ∃ e, dlookup d a = some e ∧
        r = (e.1 + weight S a b, e.2 ++ [b]) := by
  unfold relaxAt at h
  have main : ∀ (l : List Cell) (acc : Option DEntry),
      (∀ a ∈ l, adjacent a b) →
      l.foldl (relaxFun S d b) acc = some r →
      acc = some r ∨
        ∃ a, adjacent a b ∧ ∃ e, dlookup d a = some e ∧
          r = (e.1 + weight S a b, e.2 ++ [b]) := by
    intro l
    induction l with
    | nil =>
      intro acc _ hf
      exact Or.inl hf
    | cons a rest ih =>
      intro acc hadj hf
      rw [List.foldl_cons] at hf
      cases hda : dlookup d a with
      | none =>
        rw [relaxFun_none S d b acc a hda] at hf
        exact ih acc (fun x hx => hadj x (List.mem_cons_of_mem a hx)) hf
      | some e =>
        rw [relaxFun_some S d b acc a e hda] at hf
        rcases ih _ (fun x hx => hadj x (List.mem_cons_of_mem a hx)) hf with hacc | hex
        · rcases pickBetter_cases _ _ _ hacc with he | hacc2
          · right
            exact ⟨a, hadj a (List.mem_cons_self a rest), e, hda, he.symm ▸ rfl⟩
          · exact Or.inl hacc2
        · exact Or.inr hex
  have := main (nbrs b) (dlookup d b) (fun a ha => (mem_nbrs_iff a b).mp ha) h
  exact this

lemma relaxAt_sound (S : CostSurface) (W : ClipWindow) (s : Cell) (d : DMap)
    (hd : SoundMap S W s d) (b : Cell) (hb : okCell S W b) (r : DEntry)
    (h : relaxAt S d b = some r) :
    ValidWalk S W s b r.2 ∧ walkCost S r.2 = r.1 := by
  rcases relaxAt_cases S d b r h with h1 | ⟨a, hab, e, hda, hr⟩
  · exact hd b r h1
  · obtain ⟨hw, hcost⟩ := hd a e hda
    have hlast : e.2.getLast? = some a := hw.2.1
    subst hr
    constructor
    · exact validWalk_snoc S W s a b e.2 hw hb hab
    · rw [walkCost_snoc S e.2 a b hlast, hcost]

lemma relaxStep_sound (S : CostSurface) (W : ClipWindow) (s : Cell) (d : DMap)
    (hd : SoundMap S W s d) : SoundMap S W s (relaxStep S W d) := by
  intro b e h
  rw [dlookup_relaxStep] at h
  by_cases hb : okCell S W b
  · rw [if_pos hb] at h
    exact relaxAt_sound S W s d hd b hb e h
  · rw [if_neg hb] at h
    exact absurd h (by simp)

lemma searchFrom_sound (S : CostSurface) (W : ClipWindow) (s : Cell)
    (hs : okCell S W s) (k : ℕ) : SoundMap S W s (searchFrom S W s k) := by
  induction k with
  | zero =>
    intro b e h
    unfold searchFrom at h
    rw [Function.iterate_zero_apply] at h
    unfold dlookup at h
    by_cases hbs : b = s
    · rw [if_pos hbs] at h
      have he := Option.some.inj h
      subst hbs
      rw [← he]
      exact ⟨validWalk_singleton S W b hs, rfl⟩
    · rw [if_neg hbs] at h
      exact absurd h (by simp [dlookup])
  | succ n ih =>
    unfold searchFrom
    rw [Function.iterate_succ_apply']
    exact relaxStep_sound S W s _ ih


lemma pickBetter_le_new (acc : Option DEntry) (e : DEntry) :
    ∃ r, pickBetter acc e = some r ∧ q2val r.1 ≤ q2val e.1 := by
  cases acc with
  | none => exact ⟨e, rfl, le_rfl⟩
  | some e0 =>
    cases hle : q2le e0.1 e.1 with
    | true =>
      refine ⟨e0, ?_, (q2le_iff e0.1 e.1).mp hle⟩
      show some (if q2le e0.1 e.1 then e0 else e) = some e0
      rw [if_pos hle]
    | false =>
      refine ⟨e, ?_, le_rfl⟩
      show some (if q2le e0.1 e.1 then e0 else e) = some e
      rw [if_neg (by rw [hle]; exact Bool.false_ne_true)]

lemma pickBetter_le_old (acc : Option DEntry) (e e0 : DEntry) (h : acc = some e0) :
    ∃ r, pickBetter acc e = some r ∧ q2val r.1 ≤ q2val e0.1 := by
  subst h
  cases hle : q2le e0.1 e.1 with
  | true =>
    refine ⟨e0, ?_, le_rfl⟩
    show some (if q2le e0.1 e.1 then e0 else e) = some e0
    rw [if_pos hle]
  | false =>
    refine ⟨e, ?_, q2le_false e0.1 e.1 hle⟩
    show some (if q2le e0.1 e.1 then e0 else e) = some e
    rw [if_neg (by rw [hle]; exact Bool.false_ne_true)]

lemma relaxFold_keeps (S : CostSurface) (d : DMap) (b : Cell) (X : ℝ) :
    ∀ (l : List Cell) (acc : Option DEntry),
      (∃ e, acc = some e ∧ q2val e.1 ≤ X) →
      ∃ r, l.foldl (relaxFun S d b) acc = some r ∧ q2val r.1 ≤ X := by
  intro l
  induction l with
  | nil =>
    intro acc h
    obtain ⟨e, he, hle⟩ := h
    exact ⟨e, by rw [List.foldl_nil, he], hle⟩
  | cons a rest ih =>
    intro acc h
    obtain ⟨e, he, hle⟩ := h
    rw [List.foldl_cons]
    cases hda : dlookup d a with
    | none =>
      rw [relaxFun_none S d b acc a hda]
      exact ih acc ⟨e, he, hle⟩
    | some ea =>
      rw [relaxFun_some S d b acc a ea hda]
      obtain ⟨r, hr, hrle⟩ := pickBetter_le_old acc _ e he
      exact ih _ ⟨r, hr, le_trans hrle hle⟩

lemma relaxAt_le_old (S : CostSurface) (d : DMap) (b : Cell) (e : DEntry)
    (h : dlookup d b = some e) :
    ∃ r, relaxAt S d b = some r ∧ q2val r.1 ≤ q2val e.1 := by
  unfold relaxAt
  exact relaxFold_keeps S d b (q2val e.1) (nbrs b) (dlookup d b) ⟨e, h, le_rfl⟩

lemma relaxAt_le_edge (S : CostSurface) (d : DMap) (a b : Cell)
    (hab : adjacent a b) (ea : DEntry) (h : dlookup d a = some ea) :
    ∃ r, relaxAt S d b = some r ∧
      q2val r.1 ≤ q2val ea.1 + q2val (weight S a b) := by
  unfold relaxAt
  have hmem : a ∈ nbrs b := (mem_nbrs_iff a b).mpr hab
  obtain ⟨l1, l2, hsplit⟩ := List.append_of_mem hmem
  rw [hsplit, List.foldl_append, List.foldl_cons,
    relaxFun_some S d b _ a ea h]
  obtain ⟨r0, hr0, hr0le⟩ :=
    pickBetter_le_new (l1.foldl (relaxFun S d b) (dlookup d b))
      (ea.1 + weight S a b, ea.2 ++ [b])
  rw [hr0]
  apply relaxFold_keeps S d b _ l2 (some r0)
  refine ⟨r0, rfl, ?_⟩
  calc q2val r0.1 ≤ q2val (ea.1 + weight S a b) := hr0le
    _ = q2val ea.1 + q2val (weight S a b) := q2val_add _ _

lemma searchFrom_le (S : CostSurface) (W : ClipWindow) (s : Cell)
    (hs : okCell S W s) :
    ∀ (k : ℕ) (p : List Cell) (b : Cell), ValidWalk S W s b p →
      p.length ≤ k + 1 →
      ∃ r, dlookup (searchFrom S W s k) b = some r ∧
        q2val r.1 ≤ q2val (walkCost S p) := by
  intro k
  induction k with
  | zero =>
    intro p b hw hlen
    obtain ⟨hh, hl, _, _⟩ := hw
    have hpne : p ≠ [] := by
      intro hp
      rw [hp] at hh
      exact Option.noConfusion hh
    obtain ⟨x, xs, hxs⟩ := List.exists_cons_of_ne_nil hpne
    subst hxs
    have hxs0 : xs = [] := by
      rw [List.length_cons] at hlen
      exact List.length_eq_zero.mp (by omega)
    subst hxs0
    have hxsv : x = s := Option.some.inj hh
    rw [List.getLast?_singleton] at hl
    have hxb : x = b := Option.some.inj hl
    refine ⟨((0 : Q2), [s]), ?_, ?_⟩
    · unfold searchFrom
      rw [Function.iterate_zero_apply]
      unfold dlookup
      rw [if_pos (by rw [← hxb, hxsv])]
    · exact le_of_eq rfl
  | succ n ih =>
    intro p b hw hlen
    have hh := hw.1
    have hl := hw.2.1
    have hm := hw.2.2.2
    have hpne : p ≠ [] := by
      intro hp
      rw [hp] at hh
      exact Option.noConfusion hh
    have hlast : p.getLast hpne = b := by
      have h2 := List.getLast?_eq_getLast p hpne
      rw [hl] at h2
      exact (Option.some.inj h2).symm
    have hb : okCell S W b := by
      apply hm
      rw [← hlast]
      exact List.getLast_mem hpne
    have hsplit : p.dropLast ++ [b] = p := by
      rw [← hlast]
      exact List.dropLast_concat_getLast hpne
    by_cases hq : p.dropLast = []
    · have hpb : p = [b] := by
        rw [← hsplit, hq]
        rfl
      have hbs : b = s := by
        rw [hpb] at hh
        exact Option.some.inj hh
      subst hbs
      obtain ⟨r, hr, hrle⟩ := ih [b] b (validWalk_singleton S W b hs) (by simp)
      obtain ⟨r2, hr2, hr2le⟩ := relaxAt_le_old S (searchFrom S W b n) b r hr
      refine ⟨r2, ?_, ?_⟩
      · unfold searchFrom
        rw [Function.iterate_succ_apply', dlookup_relaxStep, if_pos hb]
        exact hr2
      · rw [hpb]
        linarith [hrle, hr2le]
    · obtain ⟨a, ha, haw, hadj⟩ := validWalk_unsnoc S W s b p.dropLast hq
        (by rw [hsplit]; exact hw)
      obtain ⟨r, hr, hrle⟩ := ih p.dropLast a haw (by
        have h3 : p.dropLast.length = p.length - 1 := List.length_dropLast p
        omega)
      obtain ⟨r2, hr2, hr2le⟩ :=
        relaxAt_le_edge S (searchFrom S W s n) a b hadj r hr
      refine ⟨r2, ?_, ?_⟩
      · unfold searchFrom
        rw [Function.iterate_succ_apply', dlookup_relaxStep, if_pos hb]
        exact hr2
      · have hcost : walkCost S p = walkCost S p.dropLast + weight S a b := by
          conv_lhs => rw [← hsplit]
          exact walkCost_snoc S p.dropLast a b ha
        rw [hcost, q2val_add]
        linarith [hrle, hr2le]

lemma option_or_of_isSome {x y : Option Cell} (h : x.isSome = true) :
    x.or y = x := by
  cases x with
  | none => exact absurd h (by simp)
  | some a => rfl

lemma walk_shorten (S : CostSurface) (W : ClipWindow) (s t : Cell)
    (hcs : 0 ≤ S.cellSize) :
    ∀ (n : ℕ) (p : List Cell), p.length ≤ n → ValidWalk S W s t p →
      ∃ q, ValidPath S W s t q ∧
        q2val (walkCost S q) ≤ q2val (walkCost S p) := by
  intro n
  induction n with
  | zero =>
    intro p hlen hw
    have hpne : p ≠ [] := by
      intro hp
      rw [hp] at hw
      exact Option.noConfusion hw.1
    have hlen0 : p.length = 0 := Nat.le_zero.mp hlen
    rw [List.length_eq_zero] at hlen0
    exact absurd hlen0 hpne
  | succ n ih =>
    intro p hlen hw
    by_cases hnd : p.Nodup
    · exact ⟨p, ⟨hw, hnd⟩, le_rfl⟩
    · obtain ⟨x, hdup⟩ := List.exists_duplicate_iff_not_nodup.mpr hnd
      have hsub : List.Sublist [x, x] p := List.duplicate_iff_sublist.mp hdup
      obtain ⟨r1, r2, hp12, hx1, hsub2⟩ := List.cons_sublist_iff.mp hsub
      have hx2 : x ∈ r2 := List.singleton_sublist.mp hsub2
      obtain ⟨s1, t1, h1⟩ := List.append_of_mem hx1
      obtain ⟨s2, t2, h2⟩ := List.append_of_mem hx2
      have hp : p = s1 ++ x :: ((t1 ++ s2) ++ x :: t2) := by
        rw [hp12, h1, h2]
        simp
      obtain ⟨hh, hl, hc, hm⟩ := hw
      have hxt2last : ((x :: t2) : List Cell).getLast?.isSome = true := by
        rw [List.getLast?_eq_getLast (x :: t2) (List.cons_ne_nil x t2)]
        rfl
      have hq_head : (s1 ++ x :: t2).head? = some s := by
        rw [hp] at hh
        rw [List.head?_append] at hh ⊢
        cases hs1 : s1.head? with
        | none =>
          rw [hs1] at hh
          simp at hh ⊢
          exact hh
        | some z =>
          rw [hs1] at hh
          simp at hh ⊢
          exact hh
      have hq_last : (s1 ++ x :: t2).getLast? = some t := by
        rw [hp] at hl
        rw [List.getLast?_append] at hl ⊢
        rw [show ((x :: ((t1 ++ s2) ++ x :: t2)) : List Cell).getLast? =
            ((x :: t2) : List Cell).getLast? from ?_] at hl
        · rw [option_or_of_isSome hxt2last] at hl ⊢
          exact hl
        · show ((x :: (t1 ++ s2)) ++ x :: t2).getLast? = _
          rw [List.getLast?_append]
          exact option_or_of_isSome hxt2last
      have hchain : List.Chain' adjacent (s1 ++ x :: t2) := by
        rw [hp] at hc
        rw [List.chain'_append] at hc ⊢
        obtain ⟨hc1, hc2, hj⟩ := hc
        have hc2' : List.Chain' adjacent ((x :: (t1 ++ s2)) ++ x :: t2) := hc2
        rw [List.chain'_append] at hc2'
        refine ⟨hc1, hc2'.2.1, ?_⟩
        intro y hy z hz
        have hz3 : some x = some z := hz
        apply hj y hy
        exact hz3
      have hmem : ∀ c ∈ s1 ++ x :: t2, okCell S W c := by
        intro c hcm
        apply hm
        rw [hp]
        rw [List.mem_append] at hcm
        rcases hcm with h3 | h3
        · exact List.mem_append_left _ h3
        · rw [List.mem_cons] at h3
          rcases h3 with h3 | h3
          · rw [h3]
            exact List.mem_append_right _ (List.mem_cons_self x _)
          · refine List.mem_append_right _ ?_
            rw [List.mem_cons]
            right
            exact List.mem_append_right _ (List.mem_cons_of_mem x h3)
      have hwq : ValidWalk S W s t (s1 ++ x :: t2) :=
        ⟨hq_head, hq_last, hchain, hmem⟩
      have hcost : q2val (walkCost S (s1 ++ x :: t2)) ≤ q2val (walkCost S p) := by
        have e1 : walkCost S p =
            walkCost S (s1 ++ [x]) + walkCost S (x :: ((t1 ++ s2) ++ x :: t2)) := by
          rw [hp]
          exact walkCost_append S s1 x _
        have e2 : walkCost S (x :: ((t1 ++ s2) ++ x :: t2)) =
            walkCost S ((x :: (t1 ++ s2)) ++ [x]) + walkCost S (x :: t2) := by
          show walkCost S ((x :: (t1 ++ s2)) ++ x :: t2) = _
          exact walkCost_append S (x :: (t1 ++ s2)) x t2
        have e3 : walkCost S (s1 ++ x :: t2) =
            walkCost S (s1 ++ [x]) + walkCost S (x :: t2) :=
          walkCost_append S s1 x t2
        have hmid : 0 ≤ q2val (walkCost S ((x :: (t1 ++ s2)) ++ [x])) := by
          apply walkCost_nonneg S W _ hcs
          intro c hcm
          apply hm
          rw [hp]
          rw [List.mem_append] at hcm
          rcases hcm with h3 | h3
          · rw [List.mem_cons] at h3
            rcases h3 with h3 | h3
            · rw [h3]
              exact List.mem_append_right _ (List.mem_cons_self x _)
            · exact List.mem_append_right _
                (List.mem_cons_of_mem x (List.mem_append_left _ h3))
          · rw [List.mem_singleton] at h3
            rw [h3]
            exact List.mem_append_right _ (List.mem_cons_self x _)
        rw [e1, e2, e3, q2val_add, q2val_add, q2val_add]
        linarith
      have hlen2 : (s1 ++ x :: t2).length ≤ n := by
        rw [hp] at hlen
        simp at hlen ⊢
        omega
      obtain ⟨q, hq1, hq2⟩ := ih (s1 ++ x :: t2) hlen2 hwq
      exact ⟨q, hq1, le_trans hq2 hcost⟩

/-- Number of relaxation rounds used by the search: the count of usable
window cells bounds the length of any simple path. -/
def searchRounds (S : CostSurface) (W : ClipWindow) : ℕ := (wcells S W).length

/-- Modelled from the spec: the PathFinder outcome (spec sections 4.3 and 7,
and the InvalidMCPStartValueError and LeastCostPathNotFoundError exceptions
of reVX.utilities.exceptions): invalid start, path not found, or found with
accumulated cost, real-world length in meters, and the traced path. -/
inductive PFOutcome where
  | invalidStart : PFOutcome
  | notFound : PFOutcome
  | found : Q2 → Q2 → List Cell → PFOutcome
deriving DecidableEq

/-- Modelled from the spec: the PathFinder (spec section 4.3), not in the
repository sources: validate that the start cell is valid (finite cost,
non-barrier), run the clipped-window search, and on success return the
accumulated cost, the real-world length and the traced path. -/
def pathFinder (S : CostSurface) (s t : Cell) (buffer : ℕ) : PFOutcome :=
  if validCell S s then
    match dlookup (searchFrom S (clip S s t buffer) s
        (searchRounds S (clip S s t buffer))) t with
    | none => PFOutcome.notFound
    | some e => PFOutcome.found e.1 (geoLen S e.2) e.2
  else PFOutcome.invalidStart

/-- Real-world length in kilometers of a meter-valued `Q2` length. -/
noncomputable def lengthKmVal (l : Q2) : ℝ := q2val l / 1000

lemma clip_start_mem (S : CostSurface) (s t : Cell) (buffer : ℕ)
    (h : validCell S s) : okCell S (clip S s t buffer) s := by
  obtain ⟨h1, h2, h3⟩ := h
  refine ⟨⟨h1, h2, h3⟩, ?_, ?_, ?_, ?_⟩ <;> unfold clip <;> simp only <;> omega

lemma path_length_le (S : CostSurface) (W : ClipWindow) (p : List Cell)
    (hnd : p.Nodup) (hm : ∀ c ∈ p, okCell S W c) :
    p.length ≤ searchRounds S W := by
  unfold searchRounds
  have h1 : p.toFinset.card = p.length := List.toFinset_card_of_nodup hnd
  have h2 : p.toFinset ⊆ (wcells S W).toFinset := by
    intro c hc
    rw [List.mem_toFinset] at hc ⊢
    exact (mem_wcells S W c).mpr (hm c hc)
  have h3 := Finset.card_le_card h2
  have h4 : (wcells S W).toFinset.card ≤ (wcells S W).length :=
    List.toFinset_card_le (wcells S W)
  omega

lemma pathFinder_found_of_path (S : CostSurface) (s t : Cell) (buffer : ℕ)
    (hs : validCell S s) (p : List Cell)
    (hp : ValidPath S (clip S s t buffer) s t p) :
    ∃ v l q, pathFinder S s t buffer = PFOutcome.found v l q := by
  obtain ⟨hw, hnd⟩ := hp
  have hok := clip_start_mem S s t buffer hs
  have hlen : p.length ≤ searchRounds S (clip S s t buffer) :=
    path_length_le S (clip S s t buffer) p hnd hw.2.2.2
  obtain ⟨r, hr, _⟩ := searchFrom_le S (clip S s t buffer) s hok
    (searchRounds S (clip S s t buffer)) p t hw (by omega)
  unfold pathFinder
  rw [if_pos hs, hr]
  exact ⟨r.1, geoLen S r.2, r.2, rfl⟩

lemma pathFinder_found_walk (S : CostSurface) (s t : Cell) (buffer : ℕ)
    (v l : Q2) (q : List Cell)
    (h : pathFinder S s t buffer = PFOutcome.found v l q) :
    validCell S s ∧ ValidWalk S (clip S s t buffer) s t q ∧
      walkCost S q = v ∧ l = geoLen S q := by
  unfold pathFinder at h
  by_cases hs : validCell S s
  · rw [if_pos hs] at h
    refine ⟨hs, ?_⟩
    cases hd : dlookup (searchFrom S (clip S s t buffer) s
        (searchRounds S (clip S s t buffer))) t with
    | none =>
      rw [hd] at h
      exact absurd h (by simp)
    | some e =>
      rw [hd] at h
      have he := PFOutcome.found.inj h
      obtain ⟨he1, he2, he3⟩ := he
      have hsound := searchFrom_sound S (clip S s t buffer) s
        (clip_start_mem S s t buffer hs)
        (searchRounds S (clip S s t buffer)) t e hd
      rw [← he3, ← he1, ← he2]
      exact ⟨hsound.1, hsound.2, rfl⟩
  · rw [if_neg hs] at h
    exact absurd h (by simp)

lemma pathFinder_notFound_iff (S : CostSurface) (s t : Cell) (buffer : ℕ)
    (hcs : 0 ≤ S.cellSize) (hs : validCell S s) :
    pathFinder S s t buffer = PFOutcome.notFound ↔
      ¬ ∃ p, ValidPath S (clip S s t buffer) s t p := by
  constructor
  · intro h hex
    obtain ⟨p, hp⟩ := hex
    obtain ⟨v, l, q, hq⟩ := pathFinder_found_of_path S s t buffer hs p hp
    rw [h] at hq
    exact PFOutcome.noConfusion hq
  · intro hno
    unfold pathFinder
    rw [if_pos hs]
    cases hd : dlookup (searchFrom S (clip S s t buffer) s
        (searchRounds S (clip S s t buffer))) t with
    | none => rfl
    | some e =>
      exfalso
      have hsound := searchFrom_sound S (clip S s t buffer) s
        (clip_start_mem S s t buffer hs)
        (searchRounds S (clip S s t buffer)) t e hd
      obtain ⟨q, hq, _⟩ := walk_shorten S (clip S s t buffer) s t hcs
        e.2.length e.2 le_rfl hsound.1
      exact hno ⟨q, hq⟩

lemma pathFinder_isLeast (S : CostSurface) (s t : Cell) (buffer : ℕ)
    (hcs : 0 ≤ S.cellSize) (v l : Q2) (q : List Cell)
    (h : pathFinder S s t buffer = PFOutcome.found v l q) :
    IsLeast {x : ℝ | ∃ p, ValidPath S (clip S s t buffer) s t p ∧
      q2val (walkCost S p) = x} (q2val v) := by
  obtain ⟨hs, hw, hcost, hlen⟩ := pathFinder_found_walk S s t buffer v l q h
  have hok := clip_start_mem S s t buffer hs
  have hlow : ∀ p, ValidPath S (clip S s t buffer) s t p →
      q2val v ≤ q2val (walkCost S p) := by
    intro p hp
    have hplen : p.length ≤ searchRounds S (clip S s t buffer) :=
      path_length_le S (clip S s t buffer) p hp.2 hp.1.2.2.2
    obtain ⟨r, hr, hrle⟩ := searchFrom_le S (clip S s t buffer) s hok
      (searchRounds S (clip S s t buffer)) p t hp.1 (by omega)
    unfold pathFinder at h
    rw [if_pos hs, hr] at h
    have := PFOutcome.found.inj h
    rw [← this.1]
    exact hrle
  constructor
  · obtain ⟨q2, hq2, hq2le⟩ := walk_shorten S (clip S s t buffer) s t hcs
      q.length q le_rfl hw
    refine ⟨q2, hq2, ?_⟩
    have h1 := hlow q2 hq2
    rw [hcost] at hq2le
    linarith
  · intro x hx
    obtain ⟨p, hp, hpx⟩ := hx
    rw [← hpx]
    exact hlow p hp

lemma clip_mono (S : CostSurface) (s t : Cell) (b b2 : ℕ) (hb : b ≤ b2)
    (p : Cell) (hp : inWindow (clip S s t b) p) :
    inWindow (clip S s t b2) p := by
  obtain ⟨h1, h2, h3, h4⟩ := hp
  unfold clip at *
  unfold inWindow
  simp only at h1 h2 h3 h4 ⊢
  refine ⟨by omega, by omega, by omega, by omega⟩

lemma validPath_clip_mono (S : CostSurface) (s t : Cell) (b b2 : ℕ)
    (hb : b ≤ b2) (p : List Cell)
    (hp : ValidPath S (clip S s t b) s t p) :
    ValidPath S (clip S s t b2) s t p := by
  obtain ⟨⟨hh, hl, hc, hm⟩, hnd⟩ := hp
  refine ⟨⟨hh, hl, hc, ?_⟩, hnd⟩
  intro c hcm
  obtain ⟨hv, hw⟩ := hm c hcm
  exact ⟨hv, clip_mono S s t b b2 hb c hw⟩

lemma pathFinder_mono (S : CostSurface) (s t : Cell) (b b2 : ℕ)
    (hb : b ≤ b2) (hcs : 0 ≤ S.cellSize) (v l : Q2) (q : List Cell)
    (h : pathFinder S s t b = PFOutcome.found v l q) :
    ∃ v2 l2 q2, pathFinder S s t b2 = PFOutcome.found v2 l2 q2 := by
  obtain ⟨hs, hw, _, _⟩ := pathFinder_found_walk S s t b v l q h
  obtain ⟨p, hp, _⟩ := walk_shorten S (clip S s t b) s t hcs q.length q le_rfl hw
  exact pathFinder_found_of_path S s t b2 hs p
    (validPath_clip_mono S s t b b2 hb p hp)

/-- Modelled from the spec: a (source, target) task of the TaskOrchestrator
(spec section 4.4): feature ids plus their grid cells. -/
structure PathTask where
  sid : ℕ
  tid : ℕ
  src : Cell
  tgt : Cell
deriving DecidableEq

/-- Modelled from the spec: a PathResult row of the output table (spec
sections 3 and 6): start id (start_index), target id (index), accumulated
cost, real-world length in meters, and optional saved path geometry; `none`
cost and length record an infeasible (NaN) row. -/
structure ResultRow where
  sid : ℕ
  tid : ℕ
  cost : Option Q2
  lenM : Option Q2
  geom : Option (List Cell)
deriving DecidableEq

/-- Modelled from the spec: per-task execution (spec sections 4.4 and 7):
invalid-start and not-found outcomes are captured per task and recorded as
infeasible result rows, never propagated out of the task. -/
def runTask (S : CostSurface) (buffer : ℕ) (save : Bool) (t : PathTask) : ResultRow :=
  match pathFinder S t.src t.tgt buffer with
  | PFOutcome.found v l p =>
      { sid := t.sid, tid := t.tid, cost := some v, lenM := some l
        geom := if save then some p else none }
  | PFOutcome.invalidStart =>
      { sid := t.sid, tid := t.tid, cost := none, lenM := none, geom := none }
  | PFOutcome.notFound =>
      { sid := t.sid, tid := t.tid, cost := none, lenM := none, geom := none }

/-- Sort-key comparison of result rows: by source id, then target id. -/
def rowLe (a b : ResultRow) : Bool :=
  decide (a.sid < b.sid) || (decide (a.sid = b.sid) && decide (a.tid ≤ b.tid))

/-- The stable key of a result row. -/
def rowKey (r : ResultRow) : ℕ × ℕ := (r.sid, r.tid)

/-- Propositional order on row keys: source id, then target id. -/
def keyLe (k1 k2 : ℕ × ℕ) : Prop :=
  k1.1 < k2.1 ∨ (k1.1 = k2.1 ∧ k1.2 ≤ k2.2)

lemma rowLe_iff (a b : ResultRow) :
    rowLe a b = true ↔ keyLe (rowKey a) (rowKey b) := by
  unfold rowLe keyLe rowKey
  simp only [Bool.or_eq_true, Bool.and_eq_true, decide_eq_true_eq]

lemma rowLe_total (a b : ResultRow) : rowLe a b || rowLe b a := by
  unfold rowLe
  simp only [Bool.or_eq_true, Bool.and_eq_true, decide_eq_true_eq]
  omega

lemma rowLe_trans (a b c : ResultRow) (h1 : rowLe a b) (h2 : rowLe b c) :
    rowLe a c = true := by
  unfold rowLe at *
  simp only [Bool.or_eq_true, Bool.and_eq_true, decide_eq_true_eq] at *
  omega

lemma keyLe_antisymm (k1 k2 : ℕ × ℕ) (h1 : keyLe k1 k2) (h2 : keyLe k2 k1) :
    k1 = k2 := by
  unfold keyLe at *
  rcases k1 with ⟨x1, y1⟩
  rcases k2 with ⟨x2, y2⟩
  simp only at h1 h2
  have : x1 = x2 ∧ y1 = y2 := by omega
  rw [this.1, this.2]

/-- Modelled from the spec: the TaskOrchestrator (spec section 4.4), not in
the repository sources: run every task (the list order models the worker
completion order) and sort the collected rows by the stable
(source id, target id) key. -/
def orchestrate (S : CostSurface) (buffer : ℕ) (save : Bool)
    (order : List PathTask) : List ResultRow :=
  (order.map (runTask S buffer save)).mergeSort rowLe

lemma sorted_perm_nodupkeys_eq {α : Type} (key : α → ℕ × ℕ) :
    ∀ (l1 l2 : List α), l1.Perm l2 →
      l1.Pairwise (fun a b => keyLe (key a) (key b)) →
      l2.Pairwise (fun a b => keyLe (key a) (key b)) →
      (l1.map key).Nodup → l1 = l2 := by
  intro l1
  induction l1 with
  | nil =>
    intro l2 hperm _ _ _
    exact hperm.nil_eq
  | cons a t1 ih =>
    intro l2 hperm hs1 hs2 hnd
    cases l2 with
    | nil => exact absurd hperm.symm.nil_eq (by simp)
    | cons b t2 =>
      rw [List.pairwise_cons] at hs1 hs2
      rw [List.map_cons, List.nodup_cons] at hnd
      have hab : a = b := by
        by_contra hne
        have hamem : a ∈ b :: t2 := hperm.subset (List.mem_cons_self a t1)
        have hat2 : a ∈ t2 := by
          rcases List.mem_cons.mp hamem with h | h
          · exact absurd h hne
          · exact h
        have hbmem : b ∈ a :: t1 := hperm.symm.subset (List.mem_cons_self b t2)
        have hbt1 : b ∈ t1 := by
          rcases List.mem_cons.mp hbmem with h | h
          · exact absurd h.symm hne
          · exact h
        have h1 := hs1.1 b hbt1
        have h2 := hs2.1 a hat2
        have heq : key a = key b := keyLe_antisymm _ _ h1 h2
        exact hnd.1 (heq ▸ List.mem_map_of_mem key hbt1)
      subst hab
      have hperm2 : t1.Perm t2 := hperm.cons_inv
      rw [ih t2 hperm2 hs1.2 hs2.2 hnd.2]

lemma runTask_key (S : CostSurface) (buffer : ℕ) (save : Bool) (t : PathTask) :
    rowKey (runTask S buffer save t) = (t.sid, t.tid) := by
  unfold runTask rowKey
  cases pathFinder S t.src t.tgt buffer <;> rfl

lemma orchestrate_sorted (S : CostSurface) (buffer : ℕ) (save : Bool)
    (order : List PathTask) :
    (orchestrate S buffer save order).Pairwise
      (fun a b => keyLe (rowKey a) (rowKey b)) := by
  unfold orchestrate
  have h := List.sorted_mergeSort rowLe_trans rowLe_total
    (order.map (runTask S buffer save))
  exact h.imp (fun hab => (rowLe_iff _ _).mp hab)

lemma orchestrate_perm_rows (S : CostSurface) (buffer : ℕ) (save : Bool)
    (order : List PathTask) :
    (orchestrate S buffer save order).Perm (order.map (runTask S buffer save)) :=
  List.mergeSort_perm _ _

lemma orchestrate_keys_perm (S : CostSurface) (buffer : ℕ) (save : Bool)
    (order : List PathTask) :
    ((orchestrate S buffer save order).map rowKey).Perm
      (order.map (fun t => (t.sid, t.tid))) := by
  have h1 := (orchestrate_perm_rows S buffer save order).map rowKey
  have h2 : (order.map (runTask S buffer save)).map rowKey =
      order.map (fun t => (t.sid, t.tid)) := by
    rw [List.map_map]
    apply List.map_congr_left
    intro t _
    exact runTask_key S buffer save t
  rw [h2] at h1
  exact h1

lemma orchestrate_perm_eq (S : CostSurface) (buffer : ℕ) (save : Bool)
    (tasks order : List PathTask) (hperm : order.Perm tasks)
    (hkeys : (tasks.map (fun t => (t.sid, t.tid))).Nodup) :
    orchestrate S buffer save order = orchestrate S buffer save tasks := by
  apply sorted_perm_nodupkeys_eq rowKey
  · exact (orchestrate_perm_rows S buffer save order).trans
      ((hperm.map _).trans (orchestrate_perm_rows S buffer save tasks).symm)
  · exact orchestrate_sorted S buffer save order
  · exact orchestrate_sorted S buffer save tasks
  · have h1 := orchestrate_keys_perm S buffer save order
    have h2 := hperm.map (fun t => (t.sid, t.tid))
    exact ((h1.trans h2).nodup_iff).mpr hkeys

lemma orchestrate_length (S : CostSurface) (buffer : ℕ) (save : Bool)
    (order : List PathTask) :
    (orchestrate S buffer save order).length = order.length := by
  rw [(orchestrate_perm_rows S buffer save order).length_eq, List.length_map]

lemma orchestrate_mem (S : CostSurface) (buffer : ℕ) (save : Bool)
    (order : List PathTask) (t : PathTask) (ht : t ∈ order) :
    runTask S buffer save t ∈ orchestrate S buffer save order := by
  apply (orchestrate_perm_rows S buffer save order).mem_iff.mpr
  exact List.mem_map_of_mem _ ht

/-- Modelled from the spec: a named raster cost layer (spec section 4.1):
per-cell values plus a terrain/engineering barrier flag. -/
structure CostLayer where
  value : ℕ → ℕ → ℚ
  flagged : ℕ → ℕ → Bool

/-- Modelled from the spec: the CostLayerCombiner (spec section 4.1), not in
the repository sources: resolve the selected layer names, sum the selected
layers cell-wise, and multiply cells flagged as barriers in any contributing
layer by the barrier multiplier; a missing layer name is a configuration
error. -/
def resolveLayers (reg : String → Option CostLayer) :
    List String → Option (List CostLayer)
  | [] => some []
  | n :: rest =>
      match reg n, resolveLayers reg rest with
      | some L, some ls => some (L :: ls)
      | _, _ => none

/-- Cell-wise combination of the resolved layers, with the barrier
multiplier applied wherever any contributing layer flags the cell. -/
def combineLayers (reg : String → Option CostLayer) (sel : List String)
    (mult : ℚ) (rows cols : ℕ) (cellSize : ℚ) : Except String CostSurface :=
  match resolveLayers reg sel with
  | none => Except.error "missing cost layer"
  | some layers =>
      Except.ok
        { rows := rows
          cols := cols
          cellSize := cellSize
          cost := fun r c =>
            if layers.any (fun L => L.flagged r c) then
              ((layers.map (fun L => L.value r c)).sum) * mult
            else (layers.map (fun L => L.value r c)).sum }

/-- Modelled from the spec: a full batch run (spec sections 4.4 and 7):
combine the configured layers, then dispatch all tasks; per-task failures
are recorded in rows, only the configuration step can abort. -/
def runPipeline (reg : String → Option CostLayer) (sel : List String)
    (mult : ℚ) (rows cols : ℕ) (cellSize : ℚ) (buffer : ℕ) (save : Bool)
    (tasks : List PathTask) : Except String (List ResultRow) :=
  match combineLayers reg sel mult rows cols cellSize with
  | Except.error e => Except.error e
  | Except.ok S => Except.ok (orchestrate S buffer save tasks)

/-- Modelled from the spec: a point of interconnection (spec section 3):
stable index, geographic coordinates, owning region. -/
structure NetworkPOI where
  idx : ℕ
  lat : ℚ
  lon : ℚ
  region : String
deriving DecidableEq

/-- Modelled from the spec: a substation feature point (spec section 3):
identifier plus region tag. -/
structure Substation where
  sid : ℕ
  region : String
deriving DecidableEq

/-- Modelled from the spec: one candidate POI evaluation for a substation
(spec section 4.5): existing-network cost, greenfield path cost, and the
physical distance used for tie-breaking. -/
structure PoiCand where
  poi : NetworkPOI
  existCost : ℚ
  greenCost : ℚ
  dist : ℚ
deriving DecidableEq

/-- Total reinforcement cost of a candidate: existing-line cost plus
greenfield cost. -/
def totalCost (c : PoiCand) : ℚ := c.existCost + c.greenCost

/-- Strict lexicographic preference between candidates: lower total cost,
then smaller physical distance, then the fixed stable POI ordering. -/
def candLt (c d : PoiCand) : Prop :=
  totalCost c < totalCost d ∨
    (totalCost c = totalCost d ∧
      (c.dist < d.dist ∨ (c.dist = d.dist ∧ c.poi.idx < d.poi.idx)))

instance (c d : PoiCand) : Decidable (candLt c d) :=
  inferInstanceAs (Decidable (totalCost c < totalCost d ∨
    (totalCost c = totalCost d ∧
      (c.dist < d.dist ∨ (c.dist = d.dist ∧ c.poi.idx < d.poi.idx)))))

/-- Non-strict lexicographic preference between candidates. -/
def candLe (c d : PoiCand) : Prop :=
  totalCost c < totalCost d ∨
    (totalCost c = totalCost d ∧
      (c.dist < d.dist ∨ (c.dist = d.dist ∧ c.poi.idx ≤ d.poi.idx)))

lemma candLe_of_not_lt (c d : PoiCand) (h : ¬ candLt c d) : candLe d c := by
  unfold candLt at h
  unfold candLe
  push_neg at h
  rcases lt_trichotomy (totalCost d) (totalCost c) with h1 | h1 | h1
  · exact Or.inl h1
  · right
    refine ⟨h1, ?_⟩
    have h2 := h.2 h1.symm
    rcases lt_or_eq_of_le h2.1 with h3 | h3
    · exact Or.inl h3
    · right
      exact ⟨h3, h2.2 h3.symm⟩
  · exact absurd h1 (not_lt.mpr h.1)

lemma candLe_refl (c : PoiCand) : candLe c c := by
  unfold candLe
  right
  exact ⟨rfl, Or.inr ⟨rfl, le_rfl⟩⟩

lemma candLt_le_trans (c b d : PoiCand) (h1 : candLt c b) (h2 : candLe b d) :
    candLe c d := by
  unfold candLt at h1
  unfold candLe at h2 ⊢
  rcases h1 with h1 | ⟨h1a, h1b⟩ <;> rcases h2 with h2 | ⟨h2a, h2b⟩
  · exact Or.inl (lt_trans h1 h2)
  · exact Or.inl (h2a ▸ h1)
  · exact Or.inl (h1a ▸ h2)
  · right
    refine ⟨h1a.trans h2a, ?_⟩
    rcases h1b with h1b | ⟨h1c, h1d⟩ <;> rcases h2b with h2b | ⟨h2c, h2d⟩
    · exact Or.inl (lt_trans h1b h2b)
    · exact Or.inl (h2c ▸ h1b)
    · exact Or.inl (h1c ▸ h2b)
    · exact Or.inr ⟨h1c.trans h2c, le_trans (le_of_lt h1d) h2d⟩

lemma candLt_toLe (c d : PoiCand) (h : candLt c d) : candLe c d := by
  unfold candLt at h
  unfold candLe
  rcases h with h | ⟨h1, h2⟩
  · exact Or.inl h
  · right
    refine ⟨h1, ?_⟩
    rcases h2 with h2 | ⟨h3, h4⟩
    · exact Or.inl h2
    · exact Or.inr ⟨h3, le_of_lt h4⟩

lemma candLe_trans (c b d : PoiCand) (h1 : candLe c b) (h2 : candLe b d) :
    candLe c d := by
  unfold candLe at h1 h2 ⊢
  rcases h1 with h1 | ⟨h1a, h1b⟩ <;> rcases h2 with h2 | ⟨h2a, h2b⟩
  · exact Or.inl (lt_trans h1 h2)
  · exact Or.inl (h2a ▸ h1)
  · exact Or.inl (h1a ▸ h2)
  · right
    refine ⟨h1a.trans h2a, ?_⟩
    rcases h1b with h1b | ⟨h1c, h1d⟩ <;> rcases h2b with h2b | ⟨h2c, h2d⟩
    · exact Or.inl (lt_trans h1b h2b)
    · exact Or.inl (h2c ▸ h1b)
    · exact Or.inl (h1c ▸ h2b)
    · exact Or.inr ⟨h1c.trans h2c, le_trans h1d h2d⟩

/-- One step of the candidate selection fold: keep the strictly better
candidate, the incumbent on full ties. -/
def chooseBetter (acc : Option PoiCand) (c : PoiCand) : Option PoiCand :=
  match acc with
  | none => some c
  | some b => if candLt c b then some c else some b

lemma chooseBetter_some (b c : PoiCand) :
    chooseBetter (some b) c = if candLt c b then some c else some b := rfl

/-- Modelled from the spec: the ReinforcementPlanner candidate selection
(spec section 4.5): fold over the candidate list keeping the entry that is
strictly better in the (total cost, distance, stable POI order) lexicographic
sense, so the first-listed candidate wins full ties. -/
def selectPOI (cands : List PoiCand) : Option PoiCand :=
  cands.foldl chooseBetter none

lemma chooseBetter_cases (acc : Option PoiCand) (c r : PoiCand)
    (h : chooseBetter acc c = some r) : r = c ∨ acc = some r := by
  cases acc with
  | none => exact Or.inl (Option.some.inj h).symm
  | some b =>
    by_cases hlt : candLt c b
    · left
      rw [chooseBetter_some, if_pos hlt] at h
      exact (Option.some.inj h).symm
    · right
      rw [chooseBetter_some, if_neg hlt] at h
      rw [h]

lemma selectPOI_fold_mem (l : List PoiCand) :
    ∀ (acc : Option PoiCand) (c : PoiCand), l.foldl chooseBetter acc = some c →
      acc = some c ∨ c ∈ l := by
  induction l with
  | nil =>
    intro acc c hf
    rw [List.foldl_nil] at hf
    exact Or.inl hf
  | cons x rest ih =>
    intro acc c hf
    rw [List.foldl_cons] at hf
    rcases ih _ c hf with h1 | h1
    · rcases chooseBetter_cases acc x c h1 with h2 | h2
      · exact Or.inr (h2 ▸ List.mem_cons_self x rest)
      · exact Or.inl h2
    · exact Or.inr (List.mem_cons_of_mem x h1)

lemma selectPOI_fold_min (l : List PoiCand) :
    ∀ (acc : Option PoiCand) (c : PoiCand), l.foldl chooseBetter acc = some c →
      (∀ b, acc = some b → candLe c b) ∧ ∀ d ∈ l, candLe c d := by
  induction l with
  | nil =>
    intro acc c hf
    rw [List.foldl_nil] at hf
    refine ⟨?_, ?_⟩
    · intro b hb
      rw [hf] at hb
      rw [Option.some.inj hb]
      exact candLe_refl b
    · intro d hd
      exact absurd hd (List.not_mem_nil d)
  | cons x rest ih =>
    intro acc c hf
    rw [List.foldl_cons] at hf
    obtain ⟨ih1, ih2⟩ := ih _ c hf
    have hcx : candLe c x := by
      cases acc with
      | none => exact ih1 x rfl
      | some b =>
        by_cases hlt : candLt x b
        · apply ih1
          rw [chooseBetter_some, if_pos hlt]
        · have hcb : candLe c b := by
            apply ih1
            rw [chooseBetter_some, if_neg hlt]
          exact candLe_trans c b x hcb (candLe_of_not_lt x b hlt)
    refine ⟨?_, ?_⟩
    · intro b hb
      subst hb
      by_cases hlt : candLt x b
      · have hcx2 : candLe c x := by
          apply ih1
          rw [chooseBetter_some, if_pos hlt]
        exact candLe_trans c x b hcx2 (candLt_toLe x b hlt)
      · apply ih1
        rw [chooseBetter_some, if_neg hlt]
    · intro d hd
      rcases List.mem_cons.mp hd with h1 | h1
      · rw [h1]
        exact hcx
      · exact ih2 d h1

lemma selectPOI_spec (cands : List PoiCand) (c : PoiCand)
    (h : selectPOI cands = some c) :
    c ∈ cands ∧ ∀ d ∈ cands, candLe c d := by
  unfold selectPOI at h
  constructor
  · rcases selectPOI_fold_mem cands none c h with h1 | h1
    · exact absurd h1 (by simp)
    · exact h1
  · exact (selectPOI_fold_min cands none c h).2

lemma selectPOI_some (cands : List PoiCand) (hne : cands ≠ []) :
    ∃ c, selectPOI cands = some c := by
  unfold selectPOI
  cases cands with
  | nil => exact absurd rfl hne
  | cons x rest =>
    rw [List.foldl_cons]
    show ∃ c, rest.foldl chooseBetter (some x) = some c
    clear hne
    induction rest generalizing x with
    | nil => exact ⟨x, rfl⟩
    | cons y t ih =>
      rw [List.foldl_cons]
      cases hcb : chooseBetter (some x) y with
      | none =>
        exfalso
        rw [chooseBetter_some] at hcb
        by_cases hlt : candLt y x
        · rw [if_pos hlt] at hcb
          exact Option.noConfusion hcb
        · rw [if_neg hlt] at hcb
          exact Option.noConfusion hcb
      | some z =>
        exact ih z

lemma sqrt_two_ge_one : (1 : ℝ) ≤ Real.sqrt 2 := by
  rw [show (1 : ℝ) = Real.sqrt 1 from Real.sqrt_one.symm]
  exact Real.sqrt_le_sqrt (by norm_num)

lemma geoStep_ge (S : CostSurface) (a b : Cell) (hcs : 0 ≤ S.cellSize) :
    ((S.cellSize : ℚ) : ℝ) ≤ q2val (geoStep S a b) := by
  have hcs' : (0 : ℝ) ≤ ((S.cellSize : ℚ) : ℝ) := by exact_mod_cast hcs
  unfold geoStep q2val
  by_cases h : a.1 = b.1 ∨ a.2 = b.2
  · rw [if_pos h]
    simp
  · rw [if_neg h]
    simp only
    push_cast
    nlinarith [sqrt_two_ge_one]

lemma geoLen_ge_steps (S : CostSurface) (p : List Cell) (hcs : 0 ≤ S.cellSize) :
    ((p.length - 1 : ℕ) : ℝ) * ((S.cellSize : ℚ) : ℝ) ≤ q2val (geoLen S p) := by
  have hcs' : (0 : ℝ) ≤ ((S.cellSize : ℚ) : ℝ) := by exact_mod_cast hcs
  induction p with
  | nil => simp [geoLen, q2val_zero]
  | cons a rest ih =>
    cases rest with
    | nil => simp [geoLen, q2val_zero]
    | cons b rest2 =>
      have h1 := geoStep_ge S a b hcs
      rw [show geoLen S (a :: b :: rest2) =
        geoStep S a b + geoLen S (b :: rest2) from rfl, q2val_add]
      have h3 : ((b :: rest2).length - 1 : ℕ) + 1 = (a :: b :: rest2).length - 1 := by
        simp
      rw [← h3]
      push_cast
      linarith

/-- Chebyshev distance between two grid cells: the minimum number of
8-neighbor steps between them. -/
def cheb (a b : Cell) : ℕ :=
  max ((a.1 : ℤ) - b.1).natAbs ((a.2 : ℤ) - b.2).natAbs

lemma chain_cheb (p : List Cell) :
    ∀ (s t : Cell), p.head? = some s → p.getLast? = some t →
      p.Chain' adjacent → cheb s t ≤ p.length - 1 := by
  induction p with
  | nil =>
    intro s t hh _ _
    exact Option.noConfusion hh
  | cons a rest ih =>
    intro s t hh hl hc
    have has : a = s := Option.some.inj hh
    subst has
    cases rest with
    | nil =>
      rw [List.getLast?_singleton] at hl
      have : a = t := Option.some.inj hl
      subst this
      unfold cheb
      simp
    | cons b rest2 =>
      have hl2 : (b :: rest2).getLast? = some t := by
        rwa [List.getLast?_cons_cons] at hl
      rw [List.chain'_cons] at hc
      have hab := hc.1
      have ih2 := ih b t rfl hl2 hc.2
      unfold cheb at ih2 ⊢
      unfold adjacent at hab
      obtain ⟨_, h1, h2⟩ := hab
      simp only [List.length_cons] at ih2 ⊢
      omega

lemma geoLen_lower (S : CostSurface) (W : ClipWindow) (s t : Cell)
    (p : List Cell) (hcs : 0 ≤ S.cellSize) (hw : ValidWalk S W s t p) :
    ((cheb s t : ℕ) : ℝ) * ((S.cellSize : ℚ) : ℝ) ≤ q2val (geoLen S p) := by
  have hcs' : (0 : ℝ) ≤ ((S.cellSize : ℚ) : ℝ) := by exact_mod_cast hcs
  obtain ⟨hh, hl, hc, _⟩ := hw
  have h1 := chain_cheb p s t hh hl hc
  have h2 := geoLen_ge_steps S p hcs
  have h3 : ((cheb s t : ℕ) : ℝ) ≤ ((p.length - 1 : ℕ) : ℝ) := by exact_mod_cast h1
  nlinarith

/-- Modelled from the spec: a transmission line record; only its voltage
class is relevant to the single-voltage degraded weighting rule (spec
sections 4.5 and 9). -/
structure TLine where
  voltage : ℚ
deriving DecidableEq

/-- Modelled from the spec: a ReinforcementResult row (spec sections 3 and
6): substation id, region identifier value, and the chosen POI coordinates
(none when no POI is reachable). -/
structure RRow where
  sid : ℕ
  region : String
  poiLat : Option ℚ
  poiLon : Option ℚ
deriving DecidableEq

/-- Modelled from the spec: output column names of the reinforcement variant
(spec section 6): reinforcement-specific columns plus the region identifier
column; plain poi_lat and poi_lon columns do not appear. -/
def reinforcementCols (regionCol : String) : List String :=
  ["start_index", "index", "cost", "length_km", "reinforcement_poi_lat",
   "reinforcement_poi_lon", "reinforcement_cost_per_mw",
   "reinforcement_dist_km", regionCol]

/-- Modelled from the spec: the candidate evaluations of one substation
(spec section 4.5): every POI of the home region and of reachable adjacent
regions (`regionsOf`), with costs and distance produced by the weighting
rule `costOf` (existing cost, greenfield cost, distance). -/
def candsFor (costOf : Substation → NetworkPOI → ℚ × ℚ × ℚ)
    (regionsOf : Substation → List String) (pois : List NetworkPOI)
    (s : Substation) : List PoiCand :=
  (pois.filter (fun p => decide (p.region ∈ regionsOf s))).map
    (fun p =>
      { poi := p
        existCost := (costOf s p).1
        greenCost := (costOf s p).2.1
        dist := (costOf s p).2.2 })

/-- Modelled from the spec: the ReinforcementPlanner (spec section 4.5), not
in the repository sources. The cost-weighting rule is a parameter because the
exact formula used when the line network spans a single voltage class is an
open question of the spec (section 9); the candidate POI set does not depend
on the rule. Returns one row per substation. -/
def rrowFor (costOf : Substation → NetworkPOI → ℚ × ℚ × ℚ)
    (regionsOf : Substation → List String) (pois : List NetworkPOI)
    (s : Substation) : RRow :=
  match selectPOI (candsFor costOf regionsOf pois s) with
  | none => { sid := s.sid, region := s.region, poiLat := none, poiLon := none }
  | some c =>
      { sid := s.sid, region := s.region
        poiLat := some c.poi.lat, poiLon := some c.poi.lon }

def reinforcementRun (costOf : Substation → NetworkPOI → ℚ × ℚ × ℚ)
    (regionsOf : Substation → List String) (subs : List Substation)
    (pois : List NetworkPOI) : List RRow :=
  subs.map (rrowFor costOf regionsOf pois)

/-- Modelled from the spec: a reinforcement batch completes with a full table
unless a configuration error (modelled here as an empty transmission-line
network) surfaces before dispatch (spec sections 6 and 7). -/
def reinforcementPipeline (costOf : Substation → NetworkPOI → ℚ × ℚ × ℚ)
    (regionsOf : Substation → List String) (subs : List Substation)
    (pois : List NetworkPOI) (tlines : List TLine) :
    Except String (List RRow) :=
  if tlines.isEmpty then Except.error "no transmission lines"
  else Except.ok (reinforcementRun costOf regionsOf subs pois)

/-- Modelled from the spec: a raw connection feature handed to the
substation-to-region mapping utility: feature category and location. -/
structure RawFeat where
  fid : ℕ
  category : String
  lat : ℚ
  lon : ℚ
deriving DecidableEq

/-- Modelled from the spec: the substation-to-region mapping utility (spec
section 6): keep only features whose category is Substation and tag each with
the first listed region containing it; features contained in no region are
dropped. -/
def mapSSToRegion (regions : List (String × (ℚ → ℚ → Bool)))
    (feats : List RawFeat) : List (RawFeat × String) :=
  (feats.filter (fun f => f.category == "Substation")).filterMap
    (fun f => (regions.find? (fun r => r.2 f.lat f.lon)).map (fun r => (f, r.1)))

/-- Per-region substation count of the mapping step. -/
def regionCount (regions : List (String × (ℚ → ℚ → Bool)))
    (feats : List RawFeat) (r : String) : ℕ :=
  ((mapSSToRegion regions feats).filter (fun x => x.2 == r)).length

lemma regionCount_perm (regions : List (String × (ℚ → ℚ → Bool)))
    (feats1 feats2 : List RawFeat) (h : feats1.Perm feats2) (r : String) :
    regionCount regions feats1 r = regionCount regions feats2 r := by
  unfold regionCount mapSSToRegion
  exact (((h.filter _).filterMap _).filter _).length_eq

/-- The infeasible (NaN cost and length) result row of a task. -/
def nanRow (t : PathTask) : ResultRow :=
  { sid := t.sid, tid := t.tid, cost := none, lenM := none, geom := none }

lemma runTask_invalid (S : CostSurface) (buffer : ℕ) (save : Bool)
    (t : PathTask) (h : ¬ validCell S t.src) :
    runTask S buffer save t = nanRow t := by
  have hpf : pathFinder S t.src t.tgt buffer = PFOutcome.invalidStart := by
    unfold pathFinder
    rw [if_neg h]
  unfold runTask
  rw [hpf]
  rfl

lemma runTask_notFound (S : CostSurface) (buffer : ℕ) (save : Bool)
    (t : PathTask) (h : pathFinder S t.src t.tgt buffer = PFOutcome.notFound) :
    runTask S buffer save t = nanRow t := by
  unfold runTask
  rw [h]
  rfl

lemma runTask_found (S : CostSurface) (buffer : ℕ) (save : Bool)
    (t : PathTask) (v l : Q2) (q : List Cell)
    (h : pathFinder S t.src t.tgt buffer = PFOutcome.found v l q) :
    runTask S buffer save t =
      { sid := t.sid, tid := t.tid, cost := some v, lenM := some l
        geom := if save then some q else none } := by
  unfold runTask
  rw [h]

/-- Concrete barrier fixture mirroring the clip-buffer test: a 4 by 4 grid
of unit costs with barrier cells walling off column 2 in rows 0 to 2, with
70 km cells so that any feasible route is long. -/
def wallSurface : CostSurface :=
  { rows := 4
    cols := 4
    cost := fun r c => if c = 2 ∧ r ≤ 2 then -1 else 1
    cellSize := 70000 }

/-- The two feature-pair tasks of the barrier fixture (both directions). -/
def wallTasks : List PathTask :=
  [{ sid := 0, tid := 1, src := (0, 0), tgt := (0, 3) },
   { sid := 1, tid := 0, src := (0, 3), tgt := (0, 0) }]

/-- A detour route around the barrier wall, used to exhibit feasibility at a
large clip buffer. -/
def wallDetour : List Cell :=
  [(0, 0), (1, 1), (2, 1), (3, 2), (2, 3), (1, 3), (0, 3)]

/-- Minimal two-cell fixture for exercising the PathFinder directly. -/
def tinySurface : CostSurface :=
  { rows := 1, cols := 2, cost := fun _ _ => 1, cellSize := 1 }

def chainB : List Cell → Bool
  | [] => true
  | [_] => true
  | a :: b :: rest => decide (adjacent a b) && chainB (b :: rest)

lemma chainB_iff : ∀ p : List Cell, chainB p = true ↔ p.Chain' adjacent
  | [] => by simp [chainB]
  | [a] => by simp [chainB]
  | a :: b :: rest => by
    rw [show chainB (a :: b :: rest) =
      (decide (adjacent a b) && chainB (b :: rest)) from rfl]
    rw [Bool.and_eq_true, decide_eq_true_eq, chainB_iff (b :: rest),
      List.chain'_cons]

instance (S : CostSurface) (W : ClipWindow) (s t : Cell) (p : List Cell) :
    Decidable (ValidWalk S W s t p) :=
  decidable_of_iff
    (p.head? = some s ∧ p.getLast? = some t ∧ chainB p = true ∧
      ∀ c ∈ p, okCell S W c)
    (by simp only [chainB_iff]
        exact Iff.rfl)

instance (S : CostSurface) (W : ClipWindow) (s t : Cell) (p : List Cell) :
    Decidable (ValidPath S W s t p) :=
  inferInstanceAs (Decidable (ValidWalk S W s t p ∧ p.Nodup))

lemma resolveLayers_pair (reg : String → Option CostLayer) (A B : String) :
    resolveLayers reg [A, B] =
      match reg A, reg B with
      | some a, some b => some [a, b]
      | _, _ => none := by
  cases hA : reg A <;> cases hB : reg B <;> simp [resolveLayers, hA, hB]

/-- C1: for a fixed input set, running the batch with one worker (tasks
processed in their given order) and with several workers (any completion
order, modelled as a permutation of the task list) produces identical result
tables once the orchestrator sorts rows by (start_index, index); the rows
agree in every column, in particular cost, length and path geometry. -/
theorem parallel_matches_serial (S : CostSurface) (buffer : ℕ) (save : Bool)
    (tasks order : List PathTask) (hperm : order.Perm tasks)
    (hkeys : (tasks.map (fun t => (t.sid, t.tid))).Nodup) :
    orchestrate S buffer save order = orchestrate S buffer save tasks :=
  orchestrate_perm_eq S buffer save tasks order hperm hkeys

/-- Witness: on the barrier fixture, a reversed completion order yields the
same table as the serial order. -/
theorem parallel_matches_serial_witness :
    (wallTasks.reverse.Perm wallTasks ∧
      (wallTasks.map (fun t => (t.sid, t.tid))).Nodup) ∧
    orchestrate wallSurface 0 false wallTasks.reverse =
      orchestrate wallSurface 0 false wallTasks :=
  ⟨⟨List.reverse_perm wallTasks, by decide⟩,
    parallel_matches_serial wallSurface 0 false wallTasks wallTasks.reverse
      (List.reverse_perm wallTasks) (by decide)⟩

/-- C6: after all tasks complete, the orchestrator's returned table is
sorted by the stable key (source id, then target id), so the output row
ordering does not depend on worker count or scheduling order. -/
theorem output_sorted_by_stable_key (S : CostSurface) (buffer : ℕ)
    (save : Bool) (order : List PathTask) :
    (orchestrate S buffer save order).Pairwise
      (fun a b => keyLe (rowKey a) (rowKey b)) :=
  orchestrate_sorted S buffer save order

/-- C7: two runs of the same configuration produce identical outputs: any
two worker completion orders of the same task set give the same sorted
table, and the substation-to-region mapping gives the same per-region
substation counts regardless of the feature iteration order. -/
theorem rerun_deterministic (S : CostSurface) (buffer : ℕ) (save : Bool)
    (tasks o1 o2 : List PathTask) (h1 : o1.Perm tasks) (h2 : o2.Perm tasks)
    (hkeys : (tasks.map (fun t => (t.sid, t.tid))).Nodup)
    (regions : List (String × (ℚ → ℚ → Bool))) (feats1 feats2 : List RawFeat)
    (hf : feats1.Perm feats2) :
    orchestrate S buffer save o1 = orchestrate S buffer save o2 ∧
      ∀ r, regionCount regions feats1 r = regionCount regions feats2 r := by
  constructor
  · rw [orchestrate_perm_eq S buffer save tasks o1 h1 hkeys,
      orchestrate_perm_eq S buffer save tasks o2 h2 hkeys]
  · intro r
    exact regionCount_perm regions feats1 feats2 hf r

/-- Fixture features for the determinism witness. -/
def demoFeats : List RawFeat :=
  [{ fid := 0, category := "Substation", lat := 1, lon := 2 },
   { fid := 1, category := "TransLine", lat := 3, lon := 4 }]

/-- Witness: the determinism theorem applied to the barrier fixture and a
two-feature mapping fixture, with both nondeterministic orders reversed. -/
theorem rerun_deterministic_witness :
    (wallTasks.reverse.Perm wallTasks ∧ wallTasks.Perm wallTasks ∧
      (wallTasks.map (fun t => (t.sid, t.tid))).Nodup ∧
      demoFeats.reverse.Perm demoFeats) ∧
    (orchestrate wallSurface 0 false wallTasks.reverse =
        orchestrate wallSurface 0 false wallTasks ∧
      ∀ r, regionCount [("p1", fun _ _ => true)] demoFeats.reverse r =
        regionCount [("p1", fun _ _ => true)] demoFeats r) :=
  ⟨⟨List.reverse_perm wallTasks, List.Perm.refl wallTasks, by decide,
      List.reverse_perm demoFeats⟩,
    rerun_deterministic wallSurface 0 false wallTasks wallTasks.reverse
      wallTasks (List.reverse_perm wallTasks) (List.Perm.refl wallTasks)
      (by decide) [("p1", fun _ _ => true)] demoFeats.reverse demoFeats
      (List.reverse_perm demoFeats)⟩

/-- C8: combining cost layers is order-independent: selecting layers [A, B]
and [B, A] under the same barrier multiplier yields identical combined cost
surfaces (identical shape, cell size and cell-wise costs). -/
theorem combine_layers_comm (reg : String → Option CostLayer) (A B : String)
    (mult : ℚ) (rows cols : ℕ) (cs : ℚ) :
    combineLayers reg [A, B] mult rows cols cs =
      combineLayers reg [B, A] mult rows cols cs := by
  unfold combineLayers
  rw [resolveLayers_pair reg A B, resolveLayers_pair reg B A]
  cases hA : reg A <;> cases hB : reg B
  · rfl
  · rfl
  · rfl
  · show Except.ok _ = Except.ok _
    refine congrArg Except.ok ?_
    rename_i a b
    have hcost : (fun r c : ℕ =>
        if [a, b].any (fun L => L.flagged r c) then
          (([a, b].map (fun L => L.value r c)).sum) * mult
        else ([a, b].map (fun L => L.value r c)).sum) =
        (fun r c : ℕ =>
        if [b, a].any (fun L => L.flagged r c) then
          (([b, a].map (fun L => L.value r c)).sum) * mult
        else ([b, a].map (fun L => L.value r c)).sum) := by
      funext r c
      have hsum : ([a, b].map (fun L => L.value r c)).sum =
          ([b, a].map (fun L => L.value r c)).sum := by
        simp only [List.map_cons, List.map_nil, List.sum_cons, List.sum_nil]
        ring
      have hany : ([a, b].any (fun L => L.flagged r c)) =
          ([b, a].any (fun L => L.flagged r c)) := by
        simp only [List.any_cons, List.any_nil, Bool.or_false]
        exact Bool.or_comm _ _
      rw [hsum, hany]
    rw [hcost]

lemma wall_long_row (i j : ℕ) (s t : Cell) (p : List Cell)
    (hvalid : validCell wallSurface s)
    (hpath : ValidPath wallSurface (clip wallSurface s t 10) s t p)
    (hcheb : 3 ≤ cheb s t) :
    ∃ l, (runTask wallSurface 10 false
        { sid := i, tid := j, src := s, tgt := t }).lenM = some l ∧
      193 < lengthKmVal l := by
  obtain ⟨v, l, q, hf⟩ :=
    pathFinder_found_of_path wallSurface s t 10 hvalid p hpath
  refine ⟨l, ?_, ?_⟩
  · rw [runTask_found wallSurface 10 false _ v l q hf]
  · obtain ⟨_, hw, _, hl⟩ := pathFinder_found_walk wallSurface s t 10 v l q hf
    have hcs : (0 : ℚ) ≤ wallSurface.cellSize := by norm_num [wallSurface]
    have hlow := geoLen_lower wallSurface (clip wallSurface s t 10) s t q hcs hw
    have hcell : ((wallSurface.cellSize : ℚ) : ℝ) = 70000 := by
      norm_num [wallSurface]
    have hch : (3 : ℝ) ≤ ((cheb s t : ℕ) : ℝ) := by exact_mod_cast hcheb
    rw [hl]
    unfold lengthKmVal
    rw [hcell] at hlow
    nlinarith

/-- C2: increasing the clip buffer never turns a feasible task (a non-NaN
length row) into an infeasible one; and on the concrete barrier fixture,
whose wall forces a detour outside the minimal bounding box of the two
feature points, every output row has NaN length at clip buffer 0 while at
clip buffer 10 every output row has a real-world length exceeding 193 km. -/
theorem clip_buffer_monotone_feasibility :
    (∀ (S : CostSurface) (b b2 : ℕ) (save : Bool) (t : PathTask),
      b ≤ b2 → 0 ≤ S.cellSize → (runTask S b save t).lenM ≠ none →
      (runTask S b2 save t).lenM ≠ none) ∧
    (∀ row ∈ orchestrate wallSurface 0 false wallTasks, row.lenM = none) ∧
    (∀ row ∈ orchestrate wallSurface 10 false wallTasks,
      ∃ l, row.lenM = some l ∧ 193 < lengthKmVal l) := by
  refine ⟨?_, ?_, ?_⟩
  · intro S b b2 save t hb hcs hne
    cases hpf : pathFinder S t.src t.tgt b with
    | invalidStart =>
      exfalso
      have hv : ¬ validCell S t.src := by
        intro hval
        unfold pathFinder at hpf
        rw [if_pos hval] at hpf
        cases hd : dlookup (searchFrom S (clip S t.src t.tgt b) t.src
            (searchRounds S (clip S t.src t.tgt b))) t.tgt with
        | none =>
          rw [hd] at hpf
          exact PFOutcome.noConfusion hpf
        | some e =>
          rw [hd] at hpf
          exact PFOutcome.noConfusion hpf
      rw [runTask_invalid S b save t hv] at hne
      exact absurd rfl hne
    | notFound =>
      rw [runTask_notFound S b save t hpf] at hne
      exact absurd rfl hne
    | found v l q =>
      obtain ⟨v2, l2, q2, h2⟩ := pathFinder_mono S t.src t.tgt b b2 hb hcs v l q hpf
      rw [runTask_found S b2 save t v2 l2 q2 h2]
      simp
  · intro row hrow
    have hmem : row ∈ wallTasks.map (runTask wallSurface 0 false) :=
      (orchestrate_perm_rows wallSurface 0 false wallTasks).mem_iff.mp hrow
    rw [List.mem_map] at hmem
    obtain ⟨t, ht, hrt⟩ := hmem
    rw [show wallTasks = [{ sid := 0, tid := 1, src := (0, 0), tgt := (0, 3) },
      { sid := 1, tid := 0, src := (0, 3), tgt := (0, 0) }] from rfl,
      List.mem_cons, List.mem_singleton] at ht
    rcases ht with ht | ht <;> subst ht <;> rw [← hrt] <;> decide
  · intro row hrow
    have hmem : row ∈ wallTasks.map (runTask wallSurface 10 false) :=
      (orchestrate_perm_rows wallSurface 10 false wallTasks).mem_iff.mp hrow
    rw [List.mem_map] at hmem
    obtain ⟨t, ht, hrt⟩ := hmem
    rw [show wallTasks = [{ sid := 0, tid := 1, src := (0, 0), tgt := (0, 3) },
      { sid := 1, tid := 0, src := (0, 3), tgt := (0, 0) }] from rfl,
      List.mem_cons, List.mem_singleton] at ht
    rcases ht with ht | ht <;> subst ht <;> rw [← hrt]
    · exact wall_long_row 0 1 (0, 0) (0, 3) wallDetour (by decide) (by decide)
        (by decide)
    · exact wall_long_row 1 0 (0, 3) (0, 0) wallDetour.reverse (by decide)
        (by decide) (by decide)

/-- The tiny fixture task used by several witnesses. -/
def tinyTask : PathTask := { sid := 0, tid := 1, src := (0, 0), tgt := (0, 1) }

/-- Witness: the monotonicity half of the clip-buffer theorem applied to the
tiny fixture, whose single task is feasible already at buffer 0. -/
theorem clip_buffer_monotone_feasibility_witness :
    ((0 : ℕ) ≤ 5 ∧ (0 : ℚ) ≤ tinySurface.cellSize ∧
      (runTask tinySurface 0 false tinyTask).lenM ≠ none) ∧
    (runTask tinySurface 5 false tinyTask).lenM ≠ none :=
  ⟨⟨by decide, by decide, by decide⟩,
    clip_buffer_monotone_feasibility.1 tinySurface 0 5 false tinyTask
      (by decide) (by decide) (by decide)⟩

/-- C3: on success the PathFinder returns the least accumulated cost over
all 8-neighbor simple paths of the clipped window, where an edge weighs the
geometric distance between cell centers (1 orthogonal, sqrt 2 diagonal,
scaled by the physical cell size) times the average traversal cost of its
endpoint cells; and the returned real-world length is the sum of geographic
distances between consecutive cells of the traced path under the surface
transform, not the weighted graph distance. -/
theorem pathFinder_returns_min (S : CostSurface) (s t : Cell) (buffer : ℕ)
    (hcs : 0 ≤ S.cellSize) (v l : Q2) (q : List Cell)
    (h : pathFinder S s t buffer = PFOutcome.found v l q) :
    IsLeast {x : ℝ | ∃ p, ValidPath S (clip S s t buffer) s t p ∧
        q2val (walkCost S p) = x} (q2val v) ∧
      ValidWalk S (clip S s t buffer) s t q ∧ walkCost S q = v ∧
      l = geoLen S q := by
  obtain ⟨_, hw, hc, hl⟩ := pathFinder_found_walk S s t buffer v l q h
  exact ⟨pathFinder_isLeast S s t buffer hcs v l q h, hw, hc, hl⟩

/-- Witness: the PathFinder minimality theorem applied on the tiny two-cell
fixture, whose unique task succeeds. -/
theorem pathFinder_returns_min_witness :
    ∃ v l q,
      ((0 : ℚ) ≤ tinySurface.cellSize ∧
        pathFinder tinySurface (0, 0) (0, 1) 0 = PFOutcome.found v l q) ∧
      (IsLeast {x : ℝ |
          ∃ p, ValidPath tinySurface (clip tinySurface (0, 0) (0, 1) 0)
            (0, 0) (0, 1) p ∧ q2val (walkCost tinySurface p) = x}
          (q2val v) ∧
        ValidWalk tinySurface (clip tinySurface (0, 0) (0, 1) 0) (0, 0)
          (0, 1) q ∧
        walkCost tinySurface q = v ∧ l = geoLen tinySurface q) := by
  obtain ⟨v, l, q, h⟩ := pathFinder_found_of_path tinySurface (0, 0) (0, 1) 0
    (by decide) [(0, 0), (0, 1)] (by decide)
  exact ⟨v, l, q, ⟨by decide, h⟩,
    pathFinder_returns_min tinySurface (0, 0) (0, 1) 0 (by decide) v l q h⟩

/-- C4: a task whose start cell is a barrier (the invalid-start check behind
InvalidMCPStartValueError; a non-finite start cost is subsumed by the
invalid marker in this rational model) is recorded as an infeasible result
row; the batch output still contains one row per task and every sibling task
contributes its own row, so the failure neither crashes the run nor aborts
siblings. -/
theorem invalid_start_infeasible_isolated (S : CostSurface) (buffer : ℕ)
    (save : Bool) (tasks : List PathTask) (t : PathTask) (ht : t ∈ tasks)
    (hinv : ¬ validCell S t.src) :
    runTask S buffer save t = nanRow t ∧
      (orchestrate S buffer save tasks).length = tasks.length ∧
      ∀ t2 ∈ tasks, runTask S buffer save t2 ∈ orchestrate S buffer save tasks := by
  refine ⟨runTask_invalid S buffer save t hinv,
    orchestrate_length S buffer save tasks, ?_⟩
  intro t2 ht2
  exact orchestrate_mem S buffer save tasks t2 ht2

/-- A task starting on a barrier cell of the wall fixture. -/
def barrierTask : PathTask := { sid := 7, tid := 8, src := (0, 2), tgt := (0, 0) }

/-- Witness: the invalid-start theorem applied to a barrier-start task in a
batch alongside the two regular fixture tasks. -/
theorem invalid_start_infeasible_isolated_witness :
    (barrierTask ∈ barrierTask :: wallTasks ∧
      ¬ validCell wallSurface barrierTask.src) ∧
    (runTask wallSurface 0 false barrierTask = nanRow barrierTask ∧
      (orchestrate wallSurface 0 false (barrierTask :: wallTasks)).length =
        (barrierTask :: wallTasks).length ∧
      ∀ t2 ∈ barrierTask :: wallTasks,
        runTask wallSurface 0 false t2 ∈
          orchestrate wallSurface 0 false (barrierTask :: wallTasks)) :=
  ⟨⟨List.mem_cons_self barrierTask wallTasks, by decide⟩,
    invalid_start_infeasible_isolated wallSurface 0 false
      (barrierTask :: wallTasks) barrierTask
      (List.mem_cons_self barrierTask wallTasks) (by decide)⟩

/-- C5: a dispatched task whose window search exhausts without reaching the
target is recorded as a NaN cost/length row; the batch output remains fully
populated with exactly one row per task; and the full pipeline aborts only
when the configuration step (layer combination) fails before dispatch. -/
theorem not_found_infeasible_isolated (S : CostSurface) (buffer : ℕ)
    (save : Bool) (tasks : List PathTask) (t : PathTask) (ht : t ∈ tasks)
    (hcs : 0 ≤ S.cellSize) (hs : validCell S t.src)
    (hnopath : ¬ ∃ p, ValidPath S (clip S t.src t.tgt buffer) t.src t.tgt p) :
    runTask S buffer save t = nanRow t ∧
      (orchestrate S buffer save tasks).length = tasks.length ∧
      ∀ (reg : String → Option CostLayer) (sel : List String) (mult : ℚ)
        (rows cols : ℕ) (cs : ℚ) (S2 : CostSurface),
        combineLayers reg sel mult rows cols cs = Except.ok S2 →
        runPipeline reg sel mult rows cols cs buffer save tasks =
          Except.ok (orchestrate S2 buffer save tasks) := by
  refine ⟨?_, orchestrate_length S buffer save tasks, ?_⟩
  · exact runTask_notFound S buffer save t
      ((pathFinder_notFound_iff S t.src t.tgt buffer hcs hs).mpr hnopath)
  · intro reg sel mult rows cols cs S2 hok
    unfold runPipeline
    rw [hok]

/-- Witness: the path-not-found theorem applied to the clipped barrier
fixture at buffer 0, where the wall makes the target unreachable. -/
theorem not_found_infeasible_isolated_witness :
    ({ sid := 0, tid := 1, src := ((0 : ℕ), (0 : ℕ)),
        tgt := ((0 : ℕ), (3 : ℕ)) } ∈ wallTasks ∧
      (0 : ℚ) ≤ wallSurface.cellSize ∧
      validCell wallSurface (0, 0)) ∧
    (runTask wallSurface 0 false
        { sid := 0, tid := 1, src := (0, 0), tgt := (0, 3) } =
      nanRow { sid := 0, tid := 1, src := (0, 0), tgt := (0, 3) } ∧
      (orchestrate wallSurface 0 false wallTasks).length = wallTasks.length ∧
      ∀ (reg : String → Option CostLayer) (sel : List String) (mult : ℚ)
        (rows cols : ℕ) (cs : ℚ) (S2 : CostSurface),
        combineLayers reg sel mult rows cols cs = Except.ok S2 →
        runPipeline reg sel mult rows cols cs 0 false wallTasks =
          Except.ok (orchestrate S2 0 false wallTasks)) :=
  ⟨⟨by decide, by decide, by decide⟩,
    not_found_infeasible_isolated wallSurface 0 false wallTasks
      { sid := 0, tid := 1, src := (0, 0), tgt := (0, 3) } (by decide)
      (by decide) (by decide)
      ((pathFinder_notFound_iff wallSurface (0, 0) (0, 3) 0 (by decide)
        (by decide)).mp (by decide))⟩

lemma rrowFor_singleton (costOf : Substation → NetworkPOI → ℚ × ℚ × ℚ)
    (regionsOf : Substation → List String) (pois : List NetworkPOI)
    (s : Substation) (p : NetworkPOI)
    (hp : pois.filter (fun q => decide (q.region ∈ regionsOf s)) = [p]) :
    rrowFor costOf regionsOf pois s =
      { sid := s.sid, region := s.region
        poiLat := some p.lat, poiLon := some p.lon } := by
  unfold rrowFor candsFor
  rw [hp]
  rfl

/-- C9: the reinforcement selection picks, among a substation's candidate
POIs, one minimizing total cost (existing-line cost plus greenfield cost),
ties broken by smaller physical distance and then by the fixed stable POI
ordering; and when greenfield costs are non-negative the selected total cost
is never below the existing-network-only cost of the closest reachable
candidate. -/
theorem reinforcement_selection_min (cands : List PoiCand) (c : PoiCand)
    (h : selectPOI cands = some c) :
    c ∈ cands ∧ (∀ d ∈ cands, candLe c d) ∧
      ((∀ d ∈ cands, 0 ≤ d.greenCost) →
        ∀ d ∈ cands, (∀ d2 ∈ cands, d.existCost ≤ d2.existCost) →
          d.existCost ≤ totalCost c) := by
  obtain ⟨hmem, hmin⟩ := selectPOI_spec cands c h
  refine ⟨hmem, hmin, ?_⟩
  intro hgreen d hd hdmin
  have h1 : d.existCost ≤ c.existCost := hdmin c hmem
  have h2 : 0 ≤ c.greenCost := hgreen c hmem
  unfold totalCost
  linarith

/-- A fixture POI for the reinforcement witnesses. -/
def demoPOI : NetworkPOI := { idx := 0, lat := 41, lon := -71, region := "p1" }

/-- A fixture candidate evaluation for the selection witness. -/
def demoCand : PoiCand :=
  { poi := demoPOI, existCost := 5, greenCost := 2, dist := 10 }

/-- Witness: selection on a single-candidate list returns that candidate
with the stated minimality. -/
theorem reinforcement_selection_min_witness :
    selectPOI [demoCand] = some demoCand ∧
    (demoCand ∈ [demoCand] ∧ (∀ d ∈ [demoCand], candLe demoCand d) ∧
      ((∀ d ∈ [demoCand], 0 ≤ d.greenCost) →
        ∀ d ∈ [demoCand], (∀ d2 ∈ [demoCand], d.existCost ≤ d2.existCost) →
          d.existCost ≤ totalCost demoCand)) :=
  ⟨rfl, reinforcement_selection_min [demoCand] demoCand rfl⟩

/-- C10: when every transmission line carries a single voltage the
reinforcement run still completes successfully and produces a table with the
same row count, the same chosen POI coordinates and the same output columns
(reinforcement_poi_lat, reinforcement_poi_lon and the region identifier
present, plain poi_lat and poi_lon absent) as the multi-voltage run. Because
the degraded single-voltage weighting formula is an open question of the
spec (section 9) the statement holds for arbitrary weighting rules for the
two runs, under the test fixture shape in which every substation has exactly
one candidate POI. -/
theorem single_voltage_same_shape
    (costMulti costSingle : Substation → NetworkPOI → ℚ × ℚ × ℚ)
    (regionsOf : Substation → List String) (subs : List Substation)
    (pois : List NetworkPOI) (tlMulti tlSingle : List TLine) (v : ℚ)
    (htl1 : tlMulti ≠ []) (htl2 : tlSingle ≠ [])
    (hv : ∀ l ∈ tlSingle, l.voltage = v) (regionCol : String)
    (hrc1 : regionCol ≠ "poi_lat") (hrc2 : regionCol ≠ "poi_lon")
    (hone : ∀ s ∈ subs,
      ∃ p, pois.filter (fun q => decide (q.region ∈ regionsOf s)) = [p]) :
    ∃ T1 T2,
      reinforcementPipeline costMulti regionsOf subs pois tlMulti =
        Except.ok T1 ∧
      reinforcementPipeline costSingle regionsOf subs pois tlSingle =
        Except.ok T2 ∧
      T1.length = subs.length ∧ T2.length = subs.length ∧
      T1.map RRow.poiLat = T2.map RRow.poiLat ∧
      T1.map RRow.poiLon = T2.map RRow.poiLon ∧
      "reinforcement_poi_lat" ∈ reinforcementCols regionCol ∧
      "reinforcement_poi_lon" ∈ reinforcementCols regionCol ∧
      regionCol ∈ reinforcementCols regionCol ∧
      "poi_lat" ∉ reinforcementCols regionCol ∧
      "poi_lon" ∉ reinforcementCols regionCol := by
  refine ⟨reinforcementRun costMulti regionsOf subs pois,
    reinforcementRun costSingle regionsOf subs pois,
    ?_, ?_, ?_, ?_, ?_, ?_, ?_, ?_, ?_, ?_, ?_⟩
  · unfold reinforcementPipeline
    rw [if_neg (fun hc => htl1 (List.isEmpty_iff.mp hc))]
  · unfold reinforcementPipeline
    rw [if_neg (fun hc => htl2 (List.isEmpty_iff.mp hc))]
  · unfold reinforcementRun
    rw [List.length_map]
  · unfold reinforcementRun
    rw [List.length_map]
  · unfold reinforcementRun
    rw [List.map_map, List.map_map]
    apply List.map_congr_left
    intro s hs
    obtain ⟨p, hp⟩ := hone s hs
    show RRow.poiLat (rrowFor costMulti regionsOf pois s) =
      RRow.poiLat (rrowFor costSingle regionsOf pois s)
    rw [rrowFor_singleton costMulti regionsOf pois s p hp,
      rrowFor_singleton costSingle regionsOf pois s p hp]
  · unfold reinforcementRun
    rw [List.map_map, List.map_map]
    apply List.map_congr_left
    intro s hs
    obtain ⟨p, hp⟩ := hone s hs
    show RRow.poiLon (rrowFor costMulti regionsOf pois s) =
      RRow.poiLon (rrowFor costSingle regionsOf pois s)
    rw [rrowFor_singleton costMulti regionsOf pois s p hp,
      rrowFor_singleton costSingle regionsOf pois s p hp]
  · simp [reinforcementCols]
  · simp [reinforcementCols]
  · simp [reinforcementCols]
  · simp only [reinforcementCols, List.mem_cons, List.not_mem_nil, or_false]
    push_neg
    refine ⟨by decide, by decide, by decide, by decide, by decide, by decide,
      by decide, by decide, fun h => hrc1 h.symm⟩
  · simp only [reinforcementCols, List.mem_cons, List.not_mem_nil, or_false]
    push_neg
    refine ⟨by decide, by decide, by decide, by decide, by decide, by decide,
      by decide, by decide, fun h => hrc2 h.symm⟩

/-- Fixture substation for the single-voltage witness. -/
def demoSub : Substation := { sid := 0, region := "p1" }

/-- Witness: the single-voltage theorem applied to a one-substation,
one-POI fixture with single-voltage lines on one side. -/
theorem single_voltage_same_shape_witness :
    (([⟨345⟩, ⟨138⟩] : List TLine) ≠ [] ∧ ([⟨138⟩] : List TLine) ≠ [] ∧
      (∀ l ∈ ([⟨138⟩] : List TLine), l.voltage = 138) ∧
      ("ba_str" : String) ≠ "poi_lat" ∧ ("ba_str" : String) ≠ "poi_lon" ∧
      (∀ s ∈ [demoSub],
        ∃ p, [demoPOI].filter
          (fun q => decide (q.region ∈ (fun _ : Substation => ["p1"]) s)) = [p])) ∧
    (∃ T1 T2,
      reinforcementPipeline (fun _ _ => (1, 1, 1))
          (fun _ => ["p1"]) [demoSub] [demoPOI] [⟨345⟩, ⟨138⟩] =
        Except.ok T1 ∧
      reinforcementPipeline (fun _ _ => (2, 3, 4))
          (fun _ => ["p1"]) [demoSub] [demoPOI] [⟨138⟩] =
        Except.ok T2 ∧
      T1.length = [demoSub].length ∧ T2.length = [demoSub].length ∧
      T1.map RRow.poiLat = T2.map RRow.poiLat ∧
      T1.map RRow.poiLon = T2.map RRow.poiLon ∧
      "reinforcement_poi_lat" ∈ reinforcementCols "ba_str" ∧
      "reinforcement_poi_lon" ∈ reinforcementCols "ba_str" ∧
      "ba_str" ∈ reinforcementCols "ba_str" ∧
      "poi_lat" ∉ reinforcementCols "ba_str" ∧
      "poi_lon" ∉ reinforcementCols "ba_str") :=
  ⟨⟨by decide, by decide, by decide, by decide, by decide,
      by
        intro s hs
        rw [List.mem_singleton] at hs
        subst hs
        exact ⟨demoPOI, rfl⟩⟩,
    single_voltage_same_shape (fun _ _ => (1, 1, 1)) (fun _ _ => (2, 3, 4))
      (fun _ => ["p1"]) [demoSub] [demoPOI] [⟨345⟩, ⟨138⟩] [⟨138⟩] 138
      (by decide) (by decide) (by decide) "ba_str" (by decide) (by decide)
      (by
        intro s hs
        rw [List.mem_singleton] at hs
        subst hs
        exact ⟨demoPOI, rfl⟩)⟩
